import Mathlib

/-!
Verification of the `js-datastore-fs` filesystem datastore adapter.

JS strings are embedded as `List Char` (`JStr`).  The Node `path` module
(posix flavour), the `interface-datastore` `Key` type, and the `glob`
matching primitive are modelled at the level the adapter uses them; the
adapter's own functions (`_encode`, `_decode`, `writeFile`, `put`, `get`,
`has`, `delete`, `putRaw`, `getRaw`, `open`, `_all`) are translated
directly from the source.  Fallible operations are functions of the
outcomes of the underlying I/O primitives; a separate ideal filesystem
state (`FsState`) instantiates those primitives for state-level claims.
-/

/-- A JavaScript string, embedded as a list of characters. -/
abbrev JStr := List Char

/-- `s.split(c)` for a single-character separator, JS semantics:
`"".split(c) = [""]`, `"/".split('/') = ["", ""]`. -/
def splitOn (c : Char) : JStr → List JStr
  | [] => [[]]
  | x :: xs =>
    match splitOn c xs with
    | [] => [[x]]
    | y :: ys => if x = c then [] :: y :: ys else (x :: y) :: ys

/-- `parts.join(c)` for a single-character separator. -/
def joinSep (c : Char) : List JStr → JStr
  | [] => []
  | [s] => s
  | s :: t :: rest => s ++ c :: joinSep c (t :: rest)

theorem joinSep_cons (c : Char) (a : JStr) (l : List JStr) (h : l ≠ []) :
    joinSep c (a :: l) = a ++ c :: joinSep c l := by
  cases l with
  | nil => exact absurd rfl h
  | cons t rest => rfl

theorem splitOn_ne_nil (c : Char) (s : JStr) : splitOn c s ≠ [] := by
  cases s with
  | nil => simp [splitOn]
  | cons x xs =>
    simp only [splitOn]
    rcases h : splitOn c xs with _ | ⟨y, ys⟩
    · simp
    · by_cases hx : x = c <;> simp [hx]

theorem splitOn_single {c : Char} {s : JStr} (h : c ∉ s) : splitOn c s = [s] := by
  induction s with
  | nil => rfl
  | cons x xs ih =>
    simp only [List.mem_cons, not_or] at h
    simp only [splitOn, ih h.2]
    have : ¬ x = c := fun hc => h.1 (by rw [hc])
    simp [this]

theorem splitOn_sep_append {c : Char} {p : JStr} (t : JStr) (h : c ∉ p) :
    splitOn c (p ++ c :: t) = p :: splitOn c t := by
  induction p with
  | nil =>
    simp only [List.nil_append, splitOn]
    rcases ht : splitOn c t with _ | ⟨y, ys⟩
    · exact absurd ht (splitOn_ne_nil c t)
    · simp
  | cons x xs ih =>
    simp only [List.mem_cons, not_or] at h
    have hx : ¬ x = c := fun hc => h.1 (by rw [hc])
    rw [List.cons_append, splitOn.eq_def]
    simp only [ih h.2, hx, if_false]

theorem splitOn_joinSep {c : Char} {pieces : List JStr} (hne : pieces ≠ [])
    (hfree : ∀ p ∈ pieces, c ∉ p) :
    splitOn c (joinSep c pieces) = pieces := by
  induction pieces with
  | nil => exact absurd rfl hne
  | cons p rest ih =>
    cases rest with
    | nil => exact splitOn_single (hfree p (by simp))
    | cons q rest' =>
      rw [joinSep_cons c p _ (by simp),
        splitOn_sep_append _ (hfree p (by simp)),
        ih (by simp) (fun x hx => hfree x (List.mem_cons_of_mem _ hx))]

theorem joinSep_cons_cons (c : Char) (x : Char) (y : JStr) (ys : List JStr) :
    joinSep c ((x :: y) :: ys) = x :: joinSep c (y :: ys) := by
  cases ys with
  | nil => rfl
  | cons a as => rfl

theorem joinSep_splitOn (c : Char) (s : JStr) :
    joinSep c (splitOn c s) = s := by
  induction s with
  | nil => rfl
  | cons x xs ih =>
    simp only [splitOn]
    rcases h : splitOn c xs with _ | ⟨y, ys⟩
    · exact absurd h (splitOn_ne_nil c xs)
    · rw [h] at ih
      by_cases hx : x = c
      · simp only [if_pos hx]
        rw [joinSep_cons c [] (y :: ys) (by simp), List.nil_append, ih, hx]
      · simp only [if_neg hx]
        rw [joinSep_cons_cons, ih]

theorem joinSep_append (c : Char) {l₁ l₂ : List JStr} (h₁ : l₁ ≠ []) (h₂ : l₂ ≠ []) :
    joinSep c (l₁ ++ l₂) = joinSep c l₁ ++ c :: joinSep c l₂ := by
  induction l₁ with
  | nil => exact absurd rfl h₁
  | cons a rest ih =>
    cases rest with
    | nil =>
      rw [List.singleton_append, joinSep_cons c a _ h₂]
      rfl
    | cons b rest' =>
      rw [List.cons_append, joinSep_cons c a _ (by simp), joinSep_cons c a _ (by simp),
        ih (by simp), List.append_assoc]
      rfl

theorem joinSep_ne_nil (c : Char) {l : List JStr} (hne : l ≠ [])
    (hhead : ∀ p ∈ l, p ≠ []) : joinSep c l ≠ [] := by
  cases l with
  | nil => exact absurd rfl hne
  | cons a rest =>
    cases rest with
    | nil => exact hhead a (by simp)
    | cons b rest' =>
      rw [joinSep_cons c a _ (by simp)]
      simp [hhead a (by simp)]

theorem getLast?_cons_ne {α : Type} (a : α) {l : List α} (h : l ≠ []) :
    (a :: l).getLast? = l.getLast? := by
  cases l with
  | nil => exact absurd rfl h
  | cons b bs => rfl

theorem getLast?_joinSep_slash {pieces : List JStr} (h2 : 2 ≤ pieces.length)
    (hfree : ∀ p ∈ pieces, '/' ∉ p) :
    ((joinSep '/' pieces).getLast? = some '/') ↔ pieces.getLast? = some ([] : JStr) := by
  induction pieces with
  | nil => simp at h2
  | cons a rest ih =>
    cases rest with
    | nil => simp at h2
    | cons b rest' =>
      rw [joinSep_cons '/' a _ (by simp)]
      rw [List.getLast?_append_of_ne_nil _ (by simp)]
      cases rest' with
      | nil =>
        simp only [joinSep]
        rcases hb : (b : JStr) with _ | ⟨x, xs⟩
        · simp
        · have hbne : (x :: xs : JStr).getLast? = some ((x :: xs).getLast (by simp)) :=
            List.getLast?_eq_getLast _ _
          rw [getLast?_cons_ne _ (by simp), hbne]
          have hmem : (x :: xs).getLast (by simp) ∈ (x :: xs : JStr) := List.getLast_mem _
          have : (x :: xs).getLast (by simp) ≠ '/' := by
            intro hc
            exact hfree b (by simp [hb]) (by rw [hb]; exact hc ▸ hmem)
          simp [this]
      | cons d rest'' =>
        have hjoin_ne : joinSep '/' (b :: d :: rest'') ≠ [] := by
          rw [joinSep_cons '/' b _ (by simp)]
          rcases hb : (b : JStr) with _ | _ <;> simp
        rw [getLast?_cons_ne _ hjoin_ne]
        rw [ih (by simp) (fun p hp => hfree p (List.mem_cons_of_mem _ hp))]
        simp

/-- One step of Node's `normalizeString` segment processing ('.' and empty
segments are dropped, '..' pops unless at top of a relative path). -/
def normStep (allowUp : Bool) (acc : List JStr) (seg : JStr) : List JStr :=
  if seg = [] ∨ seg = ['.'] then acc
  else if seg = ['.', '.'] then
    (if acc ≠ [] ∧ acc.getLast? ≠ some ['.', '.'] then acc.dropLast
     else if allowUp then acc ++ [seg] else acc)
  else acc ++ [seg]

/-- `path.posix.normalize`: splits on '/', folds `normStep`, then restores
the leading slash (absolute paths) and trailing slash. -/
def pathNormalize (p : JStr) : JStr :=
  if p = [] then ['.']
  else
    let isAbs : Bool := p.head? == some '/'
    let trail : Bool := p.getLast? == some '/'
    let core := joinSep '/' ((splitOn '/' p).foldl (normStep !isAbs) [])
    if core = [] then
      (if isAbs then ['/'] else if trail then ['.', '/'] else ['.'])
    else
      (if isAbs then '/' :: core else core) ++ (if trail then ['/'] else [])

/-- `path.posix.join`: the nonempty parts joined with '/' and normalized. -/
def pathJoinList (parts : List JStr) : JStr :=
  let ne := parts.filter (fun s => !s.isEmpty)
  if ne = [] then ['.'] else pathNormalize (joinSep '/' ne)

/-- Index of the last occurrence of `c` in `s`. -/
def lastIdxOf (c : Char) : JStr → Option Nat
  | [] => none
  | x :: xs =>
    match lastIdxOf c xs with
    | some i => some (i + 1)
    | none => if x = c then some 0 else none

/-- `path.posix.extname`: the part of the basename from its last dot,
empty when the only dot is the leading one (or the basename is `..`). -/
def extnameP (p : JStr) : JStr :=
  let base := ((splitOn '/' p).getLast?).getD []
  if base = ['.', '.'] then []
  else
    match lastIdxOf '.' base with
    | none => []
    | some 0 => []
    | some i => base.drop i

/-- `Key.prototype.clean` from interface-datastore: ensure a leading '/',
strip trailing slashes (keeping a lone '/'). -/
def stripTrail (s : JStr) : JStr :=
  let r := s.reverse.dropWhile (fun c => c = '/')
  if r = [] then ['/'] else r.reverse

def keyClean (s : JStr) : JStr :=
  let s1 := if s = [] then ['/'] else s
  let s2 := if s1.head? = some '/' then s1 else '/' :: s1
  stripTrail s2

/-- `Key.prototype.list`: `toString().split('/').slice(1)`. -/
def keyList (k : JStr) : List JStr := (splitOn '/' k).drop 1

/-- `Key.prototype.parent().toString()`: `'/'` for a single-segment key,
otherwise the cleaned join of all segments but the last. -/
def keyParentStr (k : JStr) : JStr :=
  let l := keyList k
  if l.length = 1 then ['/'] else keyClean (joinSep '/' l.dropLast)

/-- The canonical string of the key whose segment list is `segs`. -/
def keyStr (segs : List JStr) : JStr := '/' :: joinSep '/' segs

/-- A sanitized key segment: nonempty, no '/', not starting with '.'
(so no `.`/`..`/hidden-file segments) and free of the glob wildcard '*'.
The adapter maps keys verbatim onto file-system paths and requires
callers to sanitize them. -/
def validSeg (s : JStr) : Prop :=
  s ≠ [] ∧ '/' ∉ s ∧ s.head? ≠ some '.' ∧ '*' ∉ s

instance (s : JStr) : Decidable (validSeg s) := by
  unfold validSeg; infer_instance

/-- A valid key: a nonempty list of sanitized segments. -/
def validKey (segs : List JStr) : Prop := segs ≠ [] ∧ ∀ s ∈ segs, validSeg s

instance (segs : List JStr) : Decidable (validKey segs) := by
  unfold validKey; infer_instance

/-- A resolved store root as produced by `path.resolve`: absolute,
normalized, no trailing slash. -/
def validRoot (root : JStr) : Prop :=
  ∃ rsegs, validKey rsegs ∧ root = keyStr rsegs

/-- A well-formed extension option: a dot followed by a nonempty
dot-free, slash-free, wildcard-free tail (e.g. the default `.data`). -/
def validExt (ext : JStr) : Prop :=
  ∃ e, e ≠ [] ∧ '.' ∉ e ∧ '/' ∉ e ∧ '*' ∉ e ∧ ext = '.' :: e

/-- A path segment that `normalizeString` keeps verbatim (or drops when
empty): not `.` and not `..`. -/
def plainPiece (s : JStr) : Prop := s = [] ∨ (s ≠ ['.'] ∧ s ≠ ['.', '.'])

theorem foldl_normStep (b : Bool) (pieces : List JStr) (acc : List JStr)
    (hplain : ∀ p ∈ pieces, plainPiece p) :
    pieces.foldl (normStep b) acc = acc ++ pieces.filter (fun s => !s.isEmpty) := by
  induction pieces generalizing acc with
  | nil => simp
  | cons p rest ih =>
    have hp := hplain p (by simp)
    rw [List.foldl_cons, ih _ (fun q hq => hplain q (List.mem_cons_of_mem _ hq))]
    by_cases hemp : p = []
    · subst hemp; simp [normStep]
    · rcases hp with hp | ⟨hp1, hp2⟩
      · exact absurd hp hemp
      · have hcond : ¬(p = [] ∨ p = ['.']) := by
          push_neg; exact ⟨hemp, hp1⟩
        simp only [normStep, if_neg hcond, if_neg hp2, List.filter_cons]
        have : (!p.isEmpty) = true := by
          cases p with
          | nil => exact absurd rfl hemp
          | cons x xs => rfl
        simp [this]

theorem pathNormalize_abs {rest : List JStr} (hne : rest ≠ [])
    (hfree : ∀ p ∈ rest, '/' ∉ p) (hplain : ∀ p ∈ rest, plainPiece p)
    (hnz : rest.filter (fun s => !s.isEmpty) ≠ []) :
    pathNormalize (joinSep '/' ([] :: rest)) =
      ('/' :: joinSep '/' (rest.filter (fun s => !s.isEmpty))) ++
        (if rest.getLast? = some ([] : JStr) then ['/'] else []) := by
  have hp : joinSep '/' ([] :: rest) = '/' :: joinSep '/' rest := by
    rw [joinSep_cons '/' [] rest hne]; rfl
  have hne2 : joinSep '/' ([] :: rest) ≠ [] := by rw [hp]; simp
  have hhead : (joinSep '/' ([] :: rest)).head? = some '/' := by rw [hp]; rfl
  have hfree2 : ∀ p ∈ ([] :: rest : List JStr), '/' ∉ p := by
    intro p hp'
    rcases List.mem_cons.mp hp' with h | h
    · subst h; simp
    · exact hfree p h
  have hsplit : splitOn '/' (joinSep '/' ([] :: rest)) = [] :: rest :=
    splitOn_joinSep (by simp) hfree2
  have hlast : ((joinSep '/' ([] :: rest)).getLast? = some '/') ↔
      rest.getLast? = some ([] : JStr) := by
    rw [getLast?_joinSep_slash (by
      have : rest.length ≠ 0 := fun h => hne (List.length_eq_zero.mp h)
      simp only [List.length_cons]
      omega) hfree2]
    rw [getLast?_cons_ne _ hne]
  have hplain2 : ∀ p ∈ ([] :: rest : List JStr), plainPiece p := by
    intro p hp'
    rcases List.mem_cons.mp hp' with h | h
    · subst h; exact Or.inl rfl
    · exact hplain p h
  have hfoldkey : ([] :: rest).foldl (normStep false) [] =
      rest.filter (fun s => !s.isEmpty) := by
    rw [foldl_normStep false _ _ hplain2]
    simp [List.filter_cons]
  have hfiltelem : ∀ p ∈ rest.filter (fun s => !s.isEmpty), p ≠ [] := by
    intro p hp'
    have := (List.mem_filter.mp hp').2
    cases p with
    | nil => simp at this
    | cons x xs => simp
  have hcore_ne : joinSep '/' (rest.filter (fun s => !s.isEmpty)) ≠ [] :=
    joinSep_ne_nil '/' hnz hfiltelem
  rw [pathNormalize]
  simp only [hne2, if_neg hne2, hhead, hsplit]
  by_cases htr : rest.getLast? = some ([] : JStr)
  · have h1 : (joinSep '/' ([] :: rest)).getLast? = some '/' := hlast.mpr htr
    simp only [h1, if_pos htr]
    simp only [beq_self_eq_true, Bool.not_true, hfoldkey]
    simp [hcore_ne]
  · have h1 : (joinSep '/' ([] :: rest)).getLast? ≠ some '/' := fun hc => htr (hlast.mp hc)
    have h1' : ((joinSep '/' ([] :: rest)).getLast? == some '/') = false := by
      cases hv : (joinSep '/' ([] :: rest)).getLast? == some '/'
      · rfl
      · exact absurd (eq_of_beq hv) h1
    simp only [h1', if_neg htr]
    simp only [beq_self_eq_true, Bool.not_true, hfoldkey]
    simp [hcore_ne]

/-- A raw Node file-system error: its `code` and `syscall` properties,
the only ones the adapter inspects. -/
structure IOErr where
  code : String
  syscall : String
deriving DecidableEq

/-- The JS error values flowing through the adapter: raw fs errors,
plain `new Error(...)`, and the typed wrappers produced by the
`interface-datastore` `Errors` helpers (each wraps its cause). -/
inductive JsError where
  | io : IOErr → JsError
  | plain : String → JsError
  | notFound : JsError → JsError
  | dbOpenFailed : JsError → JsError
  | writeFailed : JsError → JsError
  | deleteFailed : JsError → JsError
deriving DecidableEq

deriving instance DecidableEq for Except

/-- The `.code` property of a JS error (`undefined` for plain errors). -/
def JsError.codeOf : JsError → Option String
  | .io e => some e.code
  | .plain _ => none
  | .notFound _ => some "ERR_NOT_FOUND"
  | .dbOpenFailed _ => some "ERR_DB_OPEN_FAILED"
  | .writeFailed _ => some "ERR_DB_WRITE_FAILED"
  | .deleteFailed _ => some "ERR_DB_DELETE_FAILED"

/-- Whether an error is the `WriteFailed` kind. -/
def JsError.isWriteFailedKind : JsError → Bool
  | .writeFailed _ => true
  | _ => false

/-- `fs.constants.F_OK`. -/
def fsFOK : Nat := 0

/-- `fs.constants.R_OK`. -/
def fsROK : Nat := 4

/-- `fs.constants.W_OK`. -/
def fsWOK : Nat := 2

/-- The module-level `writeFile` helper: attempt the atomic write; on an
`EPERM` error from the `rename` step, check `fs.access(path,
F_OK | W_OK)` and, when that succeeds, treat the write as already done;
every other error (and an access failure) propagates.  `writeRes` is the
outcome of `writeAtomic` and `access` maps an access mode to the outcome
of `fs.access(path, mode)`. -/
def writeFile (writeRes : Except IOErr Unit) (access : Nat → Except IOErr Unit) :
    Except JsError Unit :=
  match writeRes with
  | .ok _ => .ok ()
  | .error err =>
    if err.code = "EPERM" ∧ err.syscall = "rename" then
      match access (Nat.lor fsFOK fsWOK) with
      | .ok _ => .ok ()
      | .error e => .error (.io e)
    else .error (.io err)

/-- Modelled from the spec: the variant of `writeFile` whose race
verification checks that the destination exists and is readable and
writable (`F_OK | R_OK | W_OK`), as §4.2 of the spec describes it. -/
def writeFileSpecCheck (writeRes : Except IOErr Unit)
    (access : Nat → Except IOErr Unit) : Except JsError Unit :=
  match writeRes with
  | .ok _ => .ok ()
  | .error err =>
    if err.code = "EPERM" ∧ err.syscall = "rename" then
      match access (Nat.lor fsFOK (Nat.lor fsROK fsWOK)) with
      | .ok _ => .ok ()
      | .error e => .error (.io e)
    else .error (.io err)

/-- Construction options (`createIfMissing`, `errorIfExists`,
`extension`), with the constructor's defaults applied. -/
structure DsOpts where
  createIfMissing : Bool
  errorIfExists : Bool
  extension : JStr
deriving DecidableEq

/-- The defaults merged in by the constructor. -/
def defaultOpts : DsOpts := ⟨true, false, ".data".toList⟩

/-- An `FsDatastore` instance: the resolved root path and its options. -/
structure Datastore where
  path : JStr
  opts : DsOpts
deriving DecidableEq

namespace FsDatastore

/-- `_encode`: directory and file for a key (string form). -/
def encode (ds : Datastore) (key : JStr) : JStr × JStr :=
  let parent := keyParentStr key
  let dir := pathJoinList [ds.path, parent]
  let name := key.drop parent.length
  let file := pathJoinList [dir, name ++ ds.opts.extension]
  (dir, file)

/-- `_decode`: reject a mismatched extension, then slice off the root
prefix and the extension, convert separators (the identity on posix) and
build a cleaned `Key`. -/
def decode (ds : Datastore) (file : JStr) : Except JsError JStr :=
  if extnameP file = ds.opts.extension then
    .ok (keyClean (joinSep '/'
      (splitOn '/' ((file.take (file.length - ds.opts.extension.length)).drop ds.path.length))))
  else .error (.plain "Invalid extension")

/-- `open()`'s `try` body: missing root throws `NotFound`, then
`errorIfExists` throws `DBOpenFailed`. -/
def openTryBody (ds : Datastore) (dirExists : Bool) : Except JsError Unit :=
  if !dirExists then .error (.notFound (.plain "Datastore directory does not exist"))
  else if ds.opts.errorIfExists then
    .error (.dbOpenFailed (.plain "Datastore directory already exists"))
  else .ok ()

/-- `open()`: the catch block turns `ERR_NOT_FOUND` into a recursive
`mkdirp.sync` when `createIfMissing` is set; the returned flag records
whether the root was created. -/
def openStore (ds : Datastore) (dirExists : Bool) : Except JsError Bool :=
  match openTryBody ds dirExists with
  | .ok _ => .ok false
  | .error err =>
    if err.codeOf = some "ERR_NOT_FOUND" ∧ ds.opts.createIfMissing then .ok true
    else .error err

/-- `put`: `mkdirp` then `writeFile`, any failure re-wrapped as
`WriteFailed` with the original error as cause. -/
def put (mkdirpRes : Except IOErr Unit) (writeRes : Except IOErr Unit)
    (access : Nat → Except IOErr Unit) : Except JsError Unit :=
  match mkdirpRes with
  | .error e => .error (.writeFailed (.io e))
  | .ok _ =>
    match writeFile writeRes access with
    | .ok _ => .ok ()
    | .error e => .error (.writeFailed e)

/-- `putRaw`: `mkdirp` then `writeFile` on the extension-stripped path —
with no `try`/`catch`, so errors propagate as thrown. -/
def putRaw (mkdirpRes : Except IOErr Unit) (writeRes : Except IOErr Unit)
    (access : Nat → Except IOErr Unit) : Except JsError Unit :=
  match mkdirpRes with
  | .error e => .error (.io e)
  | .ok _ => writeFile writeRes access

/-- `get`/`getRaw` error mapping: any read failure becomes `NotFound`. -/
def getOp (readRes : Except IOErr (List Nat)) : Except JsError (List Nat) :=
  match readRes with
  | .ok d => .ok d
  | .error e => .error (.notFound (.io e))

/-- `has`: an access failure of any kind yields `false`. -/
def hasOp (accessRes : Except IOErr Unit) : Bool :=
  match accessRes with
  | .ok _ => true
  | .error _ => false

/-- `delete` error mapping: `ENOENT` is swallowed, anything else becomes
`DeleteFailed`. -/
def deleteOp (unlinkRes : Except IOErr Unit) : Except JsError Unit :=
  match unlinkRes with
  | .ok _ => .ok ()
  | .error e => if e.code = "ENOENT" then .ok () else .error (.deleteFailed (.io e))

/-- The extension-stripped path used by `putRaw`/`getRaw`:
`parts.file.slice(0, -extension.length)`. -/
def rawFile (ds : Datastore) (key : JStr) : JStr :=
  (encode ds key).2.take ((encode ds key).2.length - ds.opts.extension.length)

end FsDatastore

/-- The ideal file-system state: an association list of path → bytes
(bytes as `List Nat`).  Directories are implicit. -/
structure FsState where
  files : List (JStr × List Nat)
deriving DecidableEq

/-- Contents stored at a path, if any. -/
def fsGet : List (JStr × List Nat) → JStr → Option (List Nat)
  | [], _ => none
  | e :: rest, p => if e.1 = p then some e.2 else fsGet rest p

/-- Remove every entry at a path. -/
def fsRemove (l : List (JStr × List Nat)) (p : JStr) : List (JStr × List Nat) :=
  l.filter (fun e => !decide (e.1 = p))

/-- Overwrite the contents at a path. -/
def fsSet (l : List (JStr × List Nat)) (p : JStr) (v : List Nat) :
    List (JStr × List Nat) :=
  (p, v) :: fsRemove l p

/-- `fs.readFile` against the ideal state. -/
def readFileSt (st : FsState) (p : JStr) : Except IOErr (List Nat) :=
  match fsGet st.files p with
  | some v => .ok v
  | none => .error ⟨"ENOENT", "open"⟩

/-- `fs.access` against the ideal state. -/
def accessSt (st : FsState) (p : JStr) : Except IOErr Unit :=
  match fsGet st.files p with
  | some _ => .ok ()
  | none => .error ⟨"ENOENT", "access"⟩

/-- `fs.unlink` against the ideal state: outcome and new state. -/
def unlinkSt (st : FsState) (p : JStr) : Except IOErr Unit × FsState :=
  match fsGet st.files p with
  | some _ => (.ok (), ⟨fsRemove st.files p⟩)
  | none => (.error ⟨"ENOENT", "unlink"⟩, st)

/-- A successful atomic write against the ideal state. -/
def writeAtomicSt (st : FsState) (p : JStr) (v : List Nat) : FsState :=
  ⟨fsSet st.files p v⟩

namespace FsDatastore

/-- `put` on the ideal state (mkdirp and the atomic write succeed). -/
def putSt (ds : Datastore) (st : FsState) (key : JStr) (v : List Nat) : FsState :=
  writeAtomicSt st (encode ds key).2 v

/-- `get` on the ideal state. -/
def getSt (ds : Datastore) (st : FsState) (key : JStr) : Except JsError (List Nat) :=
  getOp (readFileSt st (encode ds key).2)

/-- `has` on the ideal state. -/
def hasSt (ds : Datastore) (st : FsState) (key : JStr) : Bool :=
  hasOp (accessSt st (encode ds key).2)

/-- `delete` on the ideal state: result and new state. -/
def deleteSt (ds : Datastore) (st : FsState) (key : JStr) :
    Except JsError Unit × FsState :=
  let r := unlinkSt st (encode ds key).2
  (deleteOp r.1, r.2)

/-- `putRaw` on the ideal state. -/
def putRawSt (ds : Datastore) (st : FsState) (key : JStr) (v : List Nat) : FsState :=
  writeAtomicSt st (rawFile ds key) v

/-- `getRaw` on the ideal state. -/
def getRawSt (ds : Datastore) (st : FsState) (key : JStr) : Except JsError (List Nat) :=
  getOp (readFileSt st (rawFile ds key))

end FsDatastore

/-- A glob pattern segment, as the library parses the patterns this
adapter builds: `**` (globstar), a leading `*` followed by a literal
suffix, or a literal segment. -/
inductive GSeg where
  | lit : JStr → GSeg
  | starSuf : JStr → GSeg
  | gstar : GSeg
deriving DecidableEq

/-- Modelled glob segment parsing for the adapter's patterns (the only
wildcard the adapter emits is a leading `*`). -/
def parseGSeg (s : JStr) : GSeg :=
  if s = ['*', '*'] then .gstar
  else if s.head? = some '*' then .starSuf (s.drop 1)
  else .lit s

/-- Glob matching of a path's segments against pattern segments.  A
literal matches itself, `*` requires the suffix and refuses dotfiles,
and `**` spans any number (possibly zero) of non-hidden segments. -/
def globMatch : List GSeg → List JStr → Bool
  | [], segs => segs.isEmpty
  | .lit _ :: _, [] => false
  | .lit p :: ps, t :: rest => decide (p = t) && globMatch ps rest
  | .starSuf _ :: _, [] => false
  | .starSuf suf :: ps, t :: rest =>
    (decide (t.head? ≠ some '.') && decide (suf <:+ t)) && globMatch ps rest
  | .gstar :: ps, segs =>
    (List.range (segs.length + 1)).any fun k =>
      (segs.take k).all (fun t => decide (t.head? ≠ some '.')) &&
        globMatch ps (segs.drop k)

/-- Lexicographic order on strings by character code, the order of
`glob.sync`'s default sorted output. -/
def jstrLe : JStr → JStr → Bool
  | [], _ => true
  | _ :: _, [] => false
  | a :: as, b :: bs =>
    if a.toNat < b.toNat then true
    else if b.toNat < a.toNat then false
    else jstrLe as bs

/-- `jstrLe` as a relation. -/
def jstrRel (a b : JStr) : Prop := jstrLe a b = true

instance : DecidableRel jstrRel := fun a b =>
  inferInstanceAs (Decidable (jstrLe a b = true))

/-- A query: an optional path prefix and the keys-only flag. -/
structure Query where
  pfx : Option JStr
  keysOnly : Bool

/-- An entry yielded by a query: a key and, unless the query was
keys-only, the value read from the file. -/
structure QEntry where
  key : JStr
  value : Option (List Nat)
deriving DecidableEq

namespace FsDatastore

/-- The glob pattern `_all` builds:
`path.join(this.path, q.prefix || '**', '*' + extension)`, then
converted to a POSIX path (the identity here). -/
def mkPattern (ds : Datastore) (q : Query) : JStr :=
  let p := match q.pfx with
    | some s => if s.isEmpty then ['*', '*'] else s
    | none => ['*', '*']
  joinSep '/' (splitOn '/' (pathJoinList [ds.path, p, '*' :: ds.opts.extension]))

/-- `glob.sync` against the ideal state: the stored paths matching the
pattern, in sorted order. -/
def globSyncSt (st : FsState) (pat : JStr) : List JStr :=
  List.insertionSort jstrRel
    ((st.files.map Prod.fst).filter
      (fun f => globMatch ((splitOn '/' pat).map parseGSeg) (splitOn '/' f)))

/-- `_all` on the ideal state: resolve the pattern, then either read and
decode every match, or decode only.  Each element carries the error the
generator would throw while producing that entry. -/
def allSt (ds : Datastore) (st : FsState) (q : Query) :
    List (Except JsError QEntry) :=
  let files := globSyncSt st (mkPattern ds q)
  if !q.keysOnly then
    files.map (fun f => do
      let buf ← (readFileSt st f).mapError JsError.io
      let k ← decode ds f
      pure ⟨k, some buf⟩)
  else
    files.map (fun f => (decode ds f).map (fun k => ⟨k, none⟩))

end FsDatastore

/-- The state holding exactly the given keys (by segment lists) with the
given values, laid out as the adapter stores them. -/
def mkState (root ext : JStr) (entries : List (List JStr × List Nat)) : FsState :=
  ⟨entries.map (fun e => (root ++ keyStr e.1 ++ ext, e.2))⟩

theorem validKey_free {segs : List JStr} (hk : validKey segs) :
    ∀ p ∈ segs, '/' ∉ p := fun p hp => (hk.2 p hp).2.1

theorem validKey_elts_ne_nil {segs : List JStr} (hk : validKey segs) :
    ∀ p ∈ segs, p ≠ [] := fun p hp => (hk.2 p hp).1

theorem validSeg_plain {s : JStr} (hs : validSeg s) : plainPiece s := by
  refine Or.inr ⟨fun h => ?_, fun h => ?_⟩
  · exact hs.2.2.1 (by rw [h]; rfl)
  · exact hs.2.2.1 (by rw [h]; rfl)

theorem validKey_plain {segs : List JStr} (hk : validKey segs) :
    ∀ p ∈ segs, plainPiece p := fun p hp => validSeg_plain (hk.2 p hp)

theorem filter_nonempty_id {l : List JStr} (h : ∀ p ∈ l, p ≠ []) :
    l.filter (fun s => !s.isEmpty) = l := by
  refine List.filter_eq_self.mpr (fun p hp => ?_)
  cases hc : (p : JStr) with
  | nil => exact absurd hc (h p hp)
  | cons x xs => rfl

theorem mem_of_head?_eq {α : Type} {l : List α} {a : α}
    (h : l.head? = some a) : a ∈ l := by
  cases l with
  | nil => simp at h
  | cons b bs =>
    simp only [List.head?_cons, Option.some.injEq] at h
    simp [h]

theorem getLast?_eq_some_mem {α : Type} {l : List α} {a : α}
    (h : l.getLast? = some a) : a ∈ l := by
  induction l with
  | nil => simp at h
  | cons b bs ih =>
    cases hb : bs with
    | nil =>
      rw [hb] at h
      simp only [List.getLast?_singleton, Option.some.injEq] at h
      simp [h]
    | cons d ds =>
      rw [hb] at h
      rw [getLast?_cons_ne _ (by simp)] at h
      rw [← hb] at h
      exact List.mem_cons_of_mem _ (hb ▸ ih h)

theorem keyStr_eq_joinSep {segs : List JStr} (h : segs ≠ []) :
    keyStr segs = joinSep '/' ([] :: segs) := by
  rw [joinSep_cons '/' [] segs h, List.nil_append, keyStr]

theorem splitOn_keyStr {segs : List JStr} (hk : validKey segs) :
    splitOn '/' (keyStr segs) = [] :: segs := by
  rw [keyStr_eq_joinSep hk.1]
  refine splitOn_joinSep (by simp) ?_
  intro p hp
  rcases List.mem_cons.mp hp with h | h
  · subst h; simp
  · exact validKey_free hk p h

theorem keyList_keyStr {segs : List JStr} (hk : validKey segs) :
    keyList (keyStr segs) = segs := by
  rw [keyList, splitOn_keyStr hk, List.drop_one, List.tail_cons]

theorem getLast?_keyStr_ne_slash {segs : List JStr} (hk : validKey segs) :
    (keyStr segs).getLast? ≠ some '/' := by
  rw [keyStr_eq_joinSep hk.1]
  intro hc
  have h2 : 2 ≤ ([] :: segs : List JStr).length := by
    have : segs.length ≠ 0 := fun h => hk.1 (List.length_eq_zero.mp h)
    simp only [List.length_cons]
    omega
  have hfree : ∀ p ∈ ([] :: segs : List JStr), '/' ∉ p := by
    intro p hp
    rcases List.mem_cons.mp hp with h | h
    · subst h; simp
    · exact validKey_free hk p h
  have := (getLast?_joinSep_slash h2 hfree).mp hc
  rw [getLast?_cons_ne _ hk.1] at this
  exact validKey_elts_ne_nil hk [] (getLast?_eq_some_mem this) rfl

theorem stripTrail_noop {s : JStr} (hne : s ≠ []) (hlast : s.getLast? ≠ some '/') :
    stripTrail s = s := by
  rw [stripTrail]
  rcases hrev : s.reverse with _ | ⟨h, t⟩
  · exact absurd (by simpa using congrArg List.reverse hrev) hne
  · have hh : h ≠ '/' := by
      intro hc
      apply hlast
      rw [← List.head?_reverse, hrev, hc]
      rfl
    have hdrop : (h :: t).dropWhile (fun c => c = '/') = h :: t := by
      rw [List.dropWhile_cons]
      simp [hh]
    simp only [hrev, hdrop]
    have : (h :: t : JStr) ≠ [] := by simp
    simp only [if_neg this]
    rw [← hrev, List.reverse_reverse]

theorem keyClean_keyStr {segs : List JStr} (hk : validKey segs) :
    keyClean (keyStr segs) = keyStr segs := by
  have h1 : (keyStr segs) ≠ [] := by rw [keyStr]; simp
  have h2 : (keyStr segs).head? = some '/' := by rw [keyStr]; rfl
  simp only [keyClean, if_neg h1, if_pos h2]
  exact stripTrail_noop h1 (getLast?_keyStr_ne_slash hk)

theorem head?_joinSep_cons {a : JStr} (rest : List JStr) (ha : a ≠ []) :
    (joinSep '/' (a :: rest)).head? = a.head? := by
  cases rest with
  | nil => rfl
  | cons b rest' =>
    rw [joinSep_cons '/' a _ (by simp)]
    cases a with
    | nil => exact absurd rfl ha
    | cons x xs => rfl

theorem validKey_dropLast {segs : List JStr} (h2 : 2 ≤ segs.length)
    (hk : validKey segs) : validKey segs.dropLast := by
  constructor
  · intro hc
    have := congrArg List.length hc
    rw [List.length_dropLast] at this
    simp only [List.length_nil] at this
    omega
  · exact fun s hs => hk.2 s (List.dropLast_subset _ hs)

theorem keyParentStr_single {leaf : JStr} (hk : validKey [leaf]) :
    keyParentStr (keyStr [leaf]) = ['/'] := by
  rw [keyParentStr, keyList_keyStr hk]
  rfl

theorem keyParentStr_multi {segs : List JStr} (h2 : 2 ≤ segs.length)
    (hk : validKey segs) :
    keyParentStr (keyStr segs) = keyStr segs.dropLast := by
  rw [keyParentStr, keyList_keyStr hk]
  have hlen : segs.length ≠ 1 := by omega
  simp only [if_neg hlen]
  have hkd := validKey_dropLast h2 hk
  have hdne : segs.dropLast ≠ [] := hkd.1
  have hjne : joinSep '/' segs.dropLast ≠ [] :=
    joinSep_ne_nil '/' hdne (validKey_elts_ne_nil hkd)
  have hhead : (joinSep '/' segs.dropLast).head? ≠ some '/' := by
    rcases hd : segs.dropLast with _ | ⟨a, rest⟩
    · exact absurd hd hdne
    · have hane : a ≠ [] := validKey_elts_ne_nil hkd a (by rw [hd]; simp)
      rw [head?_joinSep_cons rest hane]
      intro hc
      exact validKey_free hkd a (by rw [hd]; simp) (mem_of_head?_eq hc)
  simp only [keyClean, if_neg hjne, if_neg hhead]
  exact stripTrail_noop (by simp) (getLast?_keyStr_ne_slash hkd)

theorem pathJoinList_pair {a b : JStr} (ha : a ≠ []) (hb : b ≠ []) :
    pathJoinList [a, b] = pathNormalize (a ++ '/' :: b) := by
  have hfa : (!a.isEmpty) = true := by
    cases a with
    | nil => exact absurd rfl ha
    | cons x xs => rfl
  have hfb : (!b.isEmpty) = true := by
    cases b with
    | nil => exact absurd rfl hb
    | cons x xs => rfl
  simp only [pathJoinList, List.filter_cons, hfa, hfb, if_pos, List.filter_nil]
  have hne : ([a, b] : List JStr) ≠ [] := by simp
  simp only [if_neg hne]
  rfl

theorem joinSep_concat_ext (init : List JStr) (last ext : JStr) :
    joinSep '/' (init ++ [last ++ ext]) = joinSep '/' (init ++ [last]) ++ ext := by
  cases init with
  | nil => simp [joinSep]
  | cons a rest =>
    rw [joinSep_append '/' (by simp) (by simp : ([last ++ ext] : List JStr) ≠ []),
      joinSep_append '/' (by simp) (by simp : ([last] : List JStr) ≠ [])]
    simp [joinSep]

theorem keyStr_cons_append (rsegs tail : List JStr) (hr : rsegs ≠ [])
    (ht : tail ≠ []) :
    joinSep '/' ([] :: (rsegs ++ tail)) =
      ('/' :: joinSep '/' rsegs) ++ '/' :: joinSep '/' tail := by
  have h1 : ([] :: (rsegs ++ tail) : List JStr) = ([] :: rsegs) ++ tail := rfl
  rw [h1, joinSep_append '/' (by simp) ht, joinSep_cons '/' [] rsegs hr]
  rfl

theorem pathNormalize_file {rsegs init : List JStr} {last ext : JStr}
    (hr : validKey rsegs) (hinit : ∀ p ∈ init, validSeg p) (hlast : validSeg last)
    (hext_free : '/' ∉ ext) (hext_len : 2 ≤ ext.length) :
    pathNormalize (joinSep '/' ([] :: (rsegs ++ init ++ [[], last ++ ext]))) =
      ('/' :: joinSep '/' rsegs) ++ ('/' :: joinSep '/' (init ++ [last])) ++ ext := by
  have hlast_ne : last ≠ [] := hlast.1
  have hle_ne : last ++ ext ≠ [] := by
    cases last with
    | nil => exact absurd rfl hlast_ne
    | cons x xs => simp
  have hle_len : 3 ≤ (last ++ ext).length := by
    rw [List.length_append]
    have : 1 ≤ last.length := by
      cases last with
      | nil => exact absurd rfl hlast_ne
      | cons x xs => simp
    omega
  have hfree : ∀ p ∈ rsegs ++ init ++ [[], last ++ ext], '/' ∉ p := by
    intro p hp
    rcases List.mem_append.mp hp with hp | hp
    · rcases List.mem_append.mp hp with hp | hp
      · exact validKey_free hr p hp
      · exact (hinit p hp).2.1
    · rcases List.mem_cons.mp hp with hp | hp
      · subst hp; simp
      · have : p = last ++ ext := by simpa using hp
        subst this
        intro hc
        rcases List.mem_append.mp hc with hc | hc
        · exact hlast.2.1 hc
        · exact hext_free hc
  have hplain : ∀ p ∈ rsegs ++ init ++ [[], last ++ ext], plainPiece p := by
    intro p hp
    rcases List.mem_append.mp hp with hp | hp
    · rcases List.mem_append.mp hp with hp | hp
      · exact validSeg_plain (hr.2 p hp)
      · exact validSeg_plain (hinit p hp)
    · rcases List.mem_cons.mp hp with hp | hp
      · subst hp; exact Or.inl rfl
      · have : p = last ++ ext := by simpa using hp
        subst this
        refine Or.inr ⟨fun h => ?_, fun h => ?_⟩
        · have := congrArg List.length h
          rw [List.length_singleton] at this
          omega
        · have := congrArg List.length h
          simp only [List.length_cons, List.length_nil] at this
          omega
  have hfilter : (rsegs ++ init ++ [[], last ++ ext]).filter (fun s => !s.isEmpty) =
      rsegs ++ init ++ [last ++ ext] := by
    rw [List.filter_append, List.filter_append,
      filter_nonempty_id (validKey_elts_ne_nil hr),
      filter_nonempty_id (fun p hp => (hinit p hp).1)]
    have : ([[], last ++ ext] : List JStr).filter (fun s => !s.isEmpty) = [last ++ ext] := by
      simp only [List.filter_cons, List.filter_nil]
      have h1 : (!([] : JStr).isEmpty) = false := rfl
      have h2 : (!(last ++ ext).isEmpty) = true := by
        cases hlc : (last ++ ext : JStr) with
        | nil => exact absurd hlc hle_ne
        | cons x xs => rfl
      rw [h1, h2]
      simp
    rw [this]
  have hlast? : (rsegs ++ init ++ [[], last ++ ext]).getLast? = some (last ++ ext) := by
    rw [List.getLast?_append_of_ne_nil _ (by simp : ([[], last ++ ext] : List JStr) ≠ [])]
    rfl
  have hnz : (rsegs ++ init ++ [[], last ++ ext]).filter (fun s => !s.isEmpty) ≠ [] := by
    rw [hfilter]
    cases hc : (rsegs : List JStr) with
    | nil => exact absurd hc hr.1
    | cons x xs => simp [hc]
  rw [pathNormalize_abs (by simp) hfree hplain hnz, hfilter, hlast?]
  have hne_some : some (last ++ ext) ≠ some ([] : JStr) := by
    intro hc
    exact hle_ne (by simpa using hc)
  rw [if_neg (by simpa using hne_some), List.append_nil]
  rw [List.append_assoc rsegs init [last ++ ext],
    joinSep_append '/' hr.1 (by
      cases init with
      | nil => simp
      | cons a as => simp),
    joinSep_concat_ext init last ext]
  simp

theorem validExt_free {ext : JStr} (he : validExt ext) : '/' ∉ ext := by
  obtain ⟨e, hene, hedot, heslash, hestar, hext⟩ := he
  rw [hext]
  intro hc
  rcases List.mem_cons.mp hc with hc | hc
  · exact absurd hc (by decide)
  · exact heslash hc

theorem validExt_len {ext : JStr} (he : validExt ext) : 2 ≤ ext.length := by
  obtain ⟨e, hene, hedot, heslash, hestar, hext⟩ := he
  rw [hext, List.length_cons]
  cases e with
  | nil => exact absurd rfl hene
  | cons x xs => simp only [List.length_cons]; omega

theorem validExt_ne_nil {ext : JStr} (he : validExt ext) : ext ≠ [] := by
  obtain ⟨e, hene, hedot, heslash, hestar, hext⟩ := he
  rw [hext]
  simp

theorem FsDatastore.encode_file (ds : Datastore) (segs : List JStr)
    (hr : validRoot ds.path) (he : validExt ds.opts.extension) (hk : validKey segs) :
    (FsDatastore.encode ds (keyStr segs)).2 =
      ds.path ++ keyStr segs ++ ds.opts.extension := by
  obtain ⟨rsegs, hrk, hroot⟩ := hr
  have hext_free : '/' ∉ ds.opts.extension := validExt_free he
  have hext_len : 2 ≤ ds.opts.extension.length := validExt_len he
  have hrootne : ds.path ≠ [] := by rw [hroot, keyStr]; simp
  rcases hsegs : segs with _ | ⟨s0, srest⟩
  · exact absurd hsegs hk.1
  rcases srest with _ | ⟨s1, srest'⟩
  · -- single-segment key
    rw [← hsegs]
    have hk1 : validKey segs := hk
    have hs0 : validSeg s0 := hk.2 s0 (by rw [hsegs]; simp)
    have hs0ne : s0 ≠ [] := hs0.1
    simp only [FsDatastore.encode]
    rw [hsegs, keyParentStr_single (hsegs ▸ hk1)]
    have hname : (keyStr [s0]).drop (['/'] : JStr).length = s0 := rfl
    rw [hname]
    have hdir : pathJoinList [ds.path, ['/']] = ('/' :: joinSep '/' rsegs) ++ ['/'] := by
      rw [pathJoinList_pair hrootne (by simp)]
      have hform : ds.path ++ '/' :: ['/'] = joinSep '/' ([] :: (rsegs ++ [[], []])) := by
        rw [keyStr_cons_append rsegs [[], []] hrk.1 (by simp), hroot, keyStr]
        rfl
      rw [hform]
      rw [pathNormalize_abs (by simp) (by
          intro p hp
          rcases List.mem_append.mp hp with hp | hp
          · exact validKey_free hrk p hp
          · rcases List.mem_cons.mp hp with hp | hp
            · subst hp; simp
            · have : p = [] := by simpa using hp
              subst this; simp)
        (by
          intro p hp
          rcases List.mem_append.mp hp with hp | hp
          · exact validSeg_plain (hrk.2 p hp)
          · rcases List.mem_cons.mp hp with hp | hp
            · subst hp; exact Or.inl rfl
            · have : p = [] := by simpa using hp
              subst this; exact Or.inl rfl)
        (by
          rw [List.filter_append, filter_nonempty_id (validKey_elts_ne_nil hrk)]
          cases hc : (rsegs : List JStr) with
          | nil => exact absurd hc hrk.1
          | cons x xs => simp [hc])]
      rw [List.filter_append, filter_nonempty_id (validKey_elts_ne_nil hrk)]
      have hlast : (rsegs ++ [[], []] : List JStr).getLast? = some ([] : JStr) := by
        rw [List.getLast?_append_of_ne_nil _ (by simp : ([[], []] : List JStr) ≠ [])]
        rfl
      rw [hlast, if_pos rfl]
      have : ([[], []] : List JStr).filter (fun s => !s.isEmpty) = [] := rfl
      rw [this, List.append_nil]
    rw [hdir]
    have hfile : pathJoinList [('/' :: joinSep '/' rsegs) ++ ['/'],
        s0 ++ ds.opts.extension] =
        ds.path ++ keyStr [s0] ++ ds.opts.extension := by
      rw [pathJoinList_pair (by simp) (by
        cases s0 with
        | nil => exact absurd rfl hs0ne
        | cons x xs => simp)]
      have hform : (('/' :: joinSep '/' rsegs) ++ ['/']) ++
          '/' :: (s0 ++ ds.opts.extension) =
          joinSep '/' ([] :: (rsegs ++ [] ++ [[], s0 ++ ds.opts.extension])) := by
        rw [List.append_nil]
        rw [keyStr_cons_append rsegs [[], s0 ++ ds.opts.extension] hrk.1 (by simp)]
        have : joinSep '/' [[], s0 ++ ds.opts.extension] =
            '/' :: (s0 ++ ds.opts.extension) := rfl
        rw [this]
        simp
      rw [hform, pathNormalize_file hrk (by simp) hs0 hext_free hext_len, hroot]
      rfl
    rw [hfile]
  · -- key with at least two segments
    rw [← hsegs]
    have h2 : 2 ≤ segs.length := by rw [hsegs]; simp only [List.length_cons]; omega
    have hne : segs ≠ [] := hk.1
    have hkd := validKey_dropLast h2 hk
    have hdlne : segs.dropLast ≠ [] := hkd.1
    have hlt : validSeg (segs.getLast hne) :=
      hk.2 _ (List.getLast_mem hne)
    have hdecomp : segs.dropLast ++ [segs.getLast hne] = segs :=
      List.dropLast_append_getLast hne
    simp only [FsDatastore.encode]
    rw [keyParentStr_multi h2 hk]
    have hjoin_segs : joinSep '/' segs =
        joinSep '/' segs.dropLast ++ '/' :: segs.getLast hne := by
      conv_lhs => rw [← hdecomp]
      rw [joinSep_append '/' hdlne (by simp)]
      rfl
    have hname : (keyStr segs).drop (keyStr segs.dropLast).length =
        '/' :: segs.getLast hne := by
      rw [keyStr, keyStr, hjoin_segs, List.length_cons, List.drop_succ_cons,
        List.drop_left]
    rw [hname]
    have hdir : pathJoinList [ds.path, keyStr segs.dropLast] =
        '/' :: joinSep '/' (rsegs ++ segs.dropLast) := by
      rw [pathJoinList_pair hrootne (by rw [keyStr]; simp)]
      have hform : ds.path ++ '/' :: keyStr segs.dropLast =
          joinSep '/' ([] :: (rsegs ++ ([] :: segs.dropLast))) := by
        rw [keyStr_cons_append rsegs ([] :: segs.dropLast) hrk.1 (by simp), hroot]
        rw [joinSep_cons '/' [] segs.dropLast hdlne]
        rfl
      rw [hform]
      rw [pathNormalize_abs (by simp) (by
          intro p hp
          rcases List.mem_append.mp hp with hp | hp
          · exact validKey_free hrk p hp
          · rcases List.mem_cons.mp hp with hp | hp
            · subst hp; simp
            · exact validKey_free hkd p hp)
        (by
          intro p hp
          rcases List.mem_append.mp hp with hp | hp
          · exact validSeg_plain (hrk.2 p hp)
          · rcases List.mem_cons.mp hp with hp | hp
            · subst hp; exact Or.inl rfl
            · exact validSeg_plain (hkd.2 p hp))
        (by
          rw [List.filter_append, filter_nonempty_id (validKey_elts_ne_nil hrk)]
          cases hc : (rsegs : List JStr) with
          | nil => exact absurd hc hrk.1
          | cons x xs => simp [hc])]
      have hfilter2 : (rsegs ++ ([] :: segs.dropLast)).filter (fun s => !s.isEmpty) =
          rsegs ++ segs.dropLast := by
        rw [List.filter_append, filter_nonempty_id (validKey_elts_ne_nil hrk),
          List.filter_cons]
        have h1 : (!([] : JStr).isEmpty) = false := rfl
        rw [h1]
        simp only [Bool.false_eq_true, if_false]
        rw [filter_nonempty_id (validKey_elts_ne_nil hkd)]
      rw [hfilter2]
      have hlastdl : (rsegs ++ ([] :: segs.dropLast)).getLast? ≠ some ([] : JStr) := by
        rw [List.getLast?_append_of_ne_nil _ (by simp : ([] :: segs.dropLast : List JStr) ≠ []),
          getLast?_cons_ne _ hdlne]
        intro hc
        exact validKey_elts_ne_nil hkd [] (getLast?_eq_some_mem hc) rfl
      rw [if_neg hlastdl, List.append_nil]
    rw [hdir]
    have hfile : pathJoinList ['/' :: joinSep '/' (rsegs ++ segs.dropLast),
        ('/' :: segs.getLast hne) ++ ds.opts.extension] =
        ds.path ++ keyStr segs ++ ds.opts.extension := by
      rw [pathJoinList_pair (by simp) (by simp)]
      have hform : ('/' :: joinSep '/' (rsegs ++ segs.dropLast)) ++
          '/' :: (('/' :: segs.getLast hne) ++ ds.opts.extension) =
          joinSep '/' ([] :: (rsegs ++ segs.dropLast ++
            [[], segs.getLast hne ++ ds.opts.extension])) := by
        rw [List.append_assoc rsegs segs.dropLast _]
        rw [keyStr_cons_append rsegs (segs.dropLast ++
          [[], segs.getLast hne ++ ds.opts.extension]) hrk.1 (by
            cases hc : segs.dropLast with
            | nil => exact absurd hc hdlne
            | cons x xs => simp)]
        rw [joinSep_append '/' hdlne (by simp :
          ([[], segs.getLast hne ++ ds.opts.extension] : List JStr) ≠ [])]
        have : joinSep '/' [[], segs.getLast hne ++ ds.opts.extension] =
            '/' :: (segs.getLast hne ++ ds.opts.extension) := rfl
        rw [this, joinSep_append '/' hrk.1 hdlne]
        simp
      rw [hform, pathNormalize_file hrk (fun p hp => hkd.2 p hp) hlt hext_free hext_len,
        hroot, keyStr, keyStr, hjoin_segs]
      simp only [List.append_assoc, List.cons_append, List.nil_append,
        List.append_cancel_left_eq]
      rw [joinSep_append '/' hdlne (by simp : ([segs.getLast hne] : List JStr) ≠ [])]
      simp [joinSep]
    rw [hfile]

theorem lastIdxOf_eq_none {c : Char} {s : JStr} (h : c ∉ s) :
    lastIdxOf c s = none := by
  induction s with
  | nil => rfl
  | cons x xs ih =>
    simp only [List.mem_cons, not_or] at h
    rw [lastIdxOf, ih h.2]
    have : ¬ x = c := fun hc => h.1 (by rw [hc])
    simp [this]

theorem lastIdxOf_append_cons {c : Char} (l : JStr) {t : JStr} (h : c ∉ t) :
    lastIdxOf c (l ++ c :: t) = some l.length := by
  induction l with
  | nil =>
    rw [List.nil_append, lastIdxOf, lastIdxOf_eq_none h]
    simp
  | cons x xs ih =>
    rw [List.cons_append, lastIdxOf, ih]
    rfl

/-- The canonical piece list of a stored file's path. -/
theorem file_pieces {root ext : JStr} {segs : List JStr} (hrk : validKey rsegs)
    (hroot : root = keyStr rsegs) (_hk : validKey segs) (hne : segs ≠ []) :
    root ++ keyStr segs ++ ext =
      joinSep '/' ([] :: (rsegs ++ (segs.dropLast ++ [segs.getLast hne ++ ext]))) := by
  rw [keyStr_cons_append rsegs _ hrk.1 (by
    cases hc : segs.dropLast with
    | nil => simp
    | cons x xs => simp)]
  rw [joinSep_concat_ext segs.dropLast _ ext, List.dropLast_append_getLast hne, hroot,
    keyStr]
  simp [keyStr]

theorem extnameP_file {root ext : JStr} {segs rsegs : List JStr}
    (hrk : validKey rsegs) (hroot : root = keyStr rsegs)
    (he : validExt ext) (hk : validKey segs) :
    extnameP (root ++ keyStr segs ++ ext) = ext := by
  obtain ⟨e, hene, hedot, heslash, hestar, hext⟩ := he
  have hne : segs ≠ [] := hk.1
  have hlt : validSeg (segs.getLast hne) := hk.2 _ (List.getLast_mem hne)
  have hltne : segs.getLast hne ≠ [] := hlt.1
  have hfree : ∀ p ∈ ([] :: (rsegs ++ (segs.dropLast ++ [segs.getLast hne ++ ext])) :
      List JStr), '/' ∉ p := by
    intro p hp
    rcases List.mem_cons.mp hp with hp | hp
    · subst hp; simp
    rcases List.mem_append.mp hp with hp | hp
    · exact validKey_free hrk p hp
    rcases List.mem_append.mp hp with hp | hp
    · exact validKey_free hk p (List.dropLast_subset _ hp)
    · have : p = segs.getLast hne ++ ext := by simpa using hp
      subst this
      intro hc
      rcases List.mem_append.mp hc with hc | hc
      · exact hlt.2.1 hc
      · rw [hext] at hc
        rcases List.mem_cons.mp hc with hc | hc
        · exact absurd hc (by decide)
        · exact heslash hc
  have hsplit : splitOn '/' (root ++ keyStr segs ++ ext) =
      [] :: (rsegs ++ (segs.dropLast ++ [segs.getLast hne ++ ext])) := by
    rw [file_pieces hrk hroot hk hne]
    exact splitOn_joinSep (by simp) hfree
  have hlast : ([] :: (rsegs ++ (segs.dropLast ++ [segs.getLast hne ++ ext])) :
      List JStr).getLast? = some (segs.getLast hne ++ ext) := by
    have h1 : ([] :: (rsegs ++ (segs.dropLast ++ [segs.getLast hne ++ ext])) :
        List JStr) = ([] :: rsegs ++ segs.dropLast) ++ [segs.getLast hne ++ ext] := by
      simp
    rw [h1, List.getLast?_append_of_ne_nil _ (by simp)]
    rfl
  rw [extnameP, hsplit, hlast]
  have hbase : (some (segs.getLast hne ++ ext)).getD ([] : JStr) =
      segs.getLast hne ++ ext := rfl
  rw [hbase]
  have hbase_len : 3 ≤ (segs.getLast hne ++ ext).length := by
    rw [List.length_append]
    have h1 : 1 ≤ (segs.getLast hne).length := by
      cases hc : segs.getLast hne with
      | nil => exact absurd hc hltne
      | cons x xs => simp
    have h2 : 2 ≤ ext.length := by
      rw [hext, List.length_cons]
      cases e with
      | nil => exact absurd rfl hene
      | cons y ys => simp only [List.length_cons]; omega
    omega
  have hnot_dd : segs.getLast hne ++ ext ≠ ['.', '.'] := by
    intro hc
    have := congrArg List.length hc
    simp only [List.length_cons, List.length_nil] at this
    omega
  rw [if_neg hnot_dd]
  have hidx : lastIdxOf '.' (segs.getLast hne ++ ext) =
      some (segs.getLast hne).length := by
    rw [hext]
    exact lastIdxOf_append_cons _ hedot
  rw [hidx]
  have hlen_ne : (segs.getLast hne).length ≠ 0 := by
    intro hc
    exact hltne (List.length_eq_zero.mp hc)
  cases hval : (segs.getLast hne).length with
  | zero => exact absurd hval hlen_ne
  | succ n =>
    simp only []
    rw [← hval, List.drop_left]

theorem FsDatastore.decode_encoded (ds : Datastore) (segs : List JStr)
    (hr : validRoot ds.path) (he : validExt ds.opts.extension) (hk : validKey segs) :
    FsDatastore.decode ds (ds.path ++ keyStr segs ++ ds.opts.extension) =
      .ok (keyStr segs) := by
  obtain ⟨rsegs, hrk, hroot⟩ := hr
  rw [FsDatastore.decode, if_pos (extnameP_file hrk hroot he hk)]
  have hlen : (ds.path ++ keyStr segs ++ ds.opts.extension).length -
      ds.opts.extension.length = (ds.path ++ keyStr segs).length := by
    simp only [List.length_append]
    omega
  have htake : (ds.path ++ keyStr segs ++ ds.opts.extension).take
      ((ds.path ++ keyStr segs ++ ds.opts.extension).length -
        ds.opts.extension.length) = ds.path ++ keyStr segs := by
    rw [hlen]
    exact List.take_left _ _
  rw [htake, List.drop_left]
  rw [joinSep_splitOn, keyClean_keyStr hk]

theorem fsRemove_cons (e : JStr × List Nat) (rest : List (JStr × List Nat))
    (p : JStr) :
    fsRemove (e :: rest) p =
      if e.1 = p then fsRemove rest p else e :: fsRemove rest p := by
  simp only [fsRemove, List.filter_cons]
  by_cases h : e.1 = p <;> simp [h]

theorem fsGet_remove_self (l : List (JStr × List Nat)) (p : JStr) :
    fsGet (fsRemove l p) p = none := by
  induction l with
  | nil => rfl
  | cons e rest ih =>
    rw [fsRemove_cons]
    by_cases h : e.1 = p
    · rw [if_pos h]
      exact ih
    · rw [if_neg h]
      simp only [fsGet, if_neg h]
      exact ih

theorem fsGet_remove_ne (l : List (JStr × List Nat)) {p q : JStr} (h : q ≠ p) :
    fsGet (fsRemove l p) q = fsGet l q := by
  induction l with
  | nil => rfl
  | cons e rest ih =>
    rw [fsRemove_cons]
    by_cases he : e.1 = p
    · rw [if_pos he]
      have he1 : ¬ e.1 = q := fun hc => h ((hc ▸ he : q = p))
      simp only [fsGet, if_neg he1]
      exact ih
    · rw [if_neg he]
      by_cases heq : e.1 = q
      · simp only [fsGet, if_pos heq]
      · simp only [fsGet, if_neg heq]
        exact ih

theorem fsGet_set_self (l : List (JStr × List Nat)) (p : JStr) (v : List Nat) :
    fsGet (fsSet l p v) p = some v := by
  simp [fsSet, fsGet]

theorem fsGet_set_ne (l : List (JStr × List Nat)) {p q : JStr} (v : List Nat)
    (h : q ≠ p) : fsGet (fsSet l p v) q = fsGet l q := by
  have h1 : ¬ p = q := fun hc => h hc.symm
  simp only [fsSet, fsGet, h1, if_neg h1]
  exact fsGet_remove_ne l h

/-- C1: for every key and every byte value, including the empty value,
`get(k)` after a successful `put(k, v)` returns exactly the bytes `v`:
`put` writes the encoded file and `get` reads that same file. -/
theorem claim1_put_get_roundtrip (ds : Datastore) (st : FsState) (key : JStr)
    (v : List Nat) :
    FsDatastore.getSt ds (FsDatastore.putSt ds st key v) key = .ok v := by
  simp [FsDatastore.getSt, FsDatastore.putSt, FsDatastore.getOp, readFileSt,
    writeAtomicSt, fsGet_set_self]

/-- C7: deleting an absent key succeeds with no state change, deleting
twice leaves the same end state as deleting once, and any removal error
other than `ENOENT` surfaces as `DeleteFailed`. -/
theorem claim7_delete_idempotent (ds : Datastore) (st : FsState) (key : JStr) :
    (fsGet st.files (FsDatastore.encode ds key).2 = none →
      FsDatastore.deleteSt ds st key = (.ok (), st)) ∧
    (FsDatastore.deleteSt ds (FsDatastore.deleteSt ds st key).2 key).2 =
      (FsDatastore.deleteSt ds st key).2 ∧
    (∀ e : IOErr, e.code ≠ "ENOENT" →
      FsDatastore.deleteOp (.error e) = .error (.deleteFailed (.io e))) := by
  refine ⟨fun h => ?_, ?_, fun e he => ?_⟩
  · simp [FsDatastore.deleteSt, unlinkSt, h, FsDatastore.deleteOp]
  · rcases hget : fsGet st.files (FsDatastore.encode ds key).2 with _ | v
    · simp [FsDatastore.deleteSt, unlinkSt, hget]
    · simp only [FsDatastore.deleteSt, unlinkSt, hget]
      simp [fsGet_remove_self]
  · simp [FsDatastore.deleteOp, he]

/-- C7 witness: deleting a key from the empty store succeeds and leaves
the store unchanged; an `EACCES` unlink failure maps to `DeleteFailed`. -/
theorem claim7_witness :
    FsDatastore.deleteSt ⟨"/r".toList, defaultOpts⟩ ⟨[]⟩ "/a".toList =
      (.ok (), (⟨[]⟩ : FsState)) ∧
    FsDatastore.deleteOp (.error ⟨"EACCES", "unlink"⟩) =
      .error (.deleteFailed (.io ⟨"EACCES", "unlink"⟩)) :=
  ⟨(claim7_delete_idempotent _ _ _).1 rfl,
   (claim7_delete_idempotent ⟨"/r".toList, defaultOpts⟩ ⟨[]⟩ "/a".toList).2.2
     ⟨"EACCES", "unlink"⟩ (by decide)⟩

/-- C8: `has` always resolves to a boolean: `true` exactly when the
access check succeeds, and `false` on every access error whatsoever
(`ENOENT`, `EACCES`, or any other), never re-raising it. -/
theorem claim8_has_never_raises :
    FsDatastore.hasOp (.ok ()) = true ∧
    (∀ e : IOErr, FsDatastore.hasOp (.error e) = false) ∧
    (∀ (ds : Datastore) (st : FsState) (key : JStr),
      FsDatastore.hasSt ds st key =
        FsDatastore.hasOp (accessSt st (FsDatastore.encode ds key).2)) :=
  ⟨rfl, fun _ => rfl, fun _ _ _ => rfl⟩

/-- C6: `open()` fails with `DBOpenFailed` when `errorIfExists` is set
and the root exists; fails with the `NotFound` kind when the root is
absent and `createIfMissing` is false; creates the root and succeeds
when it is absent and `createIfMissing` is true; succeeds without
creating when the root exists and `errorIfExists` is unset. -/
theorem claim6_open_contract (ds : Datastore) (ex : Bool) :
    (ex = true → ds.opts.errorIfExists = true →
      FsDatastore.openStore ds ex =
        .error (.dbOpenFailed (.plain "Datastore directory already exists"))) ∧
    (ex = false → ds.opts.createIfMissing = false →
      FsDatastore.openStore ds ex =
        .error (.notFound (.plain "Datastore directory does not exist"))) ∧
    (ex = false → ds.opts.createIfMissing = true →
      FsDatastore.openStore ds ex = .ok true) ∧
    (ex = true → ds.opts.errorIfExists = false →
      FsDatastore.openStore ds ex = .ok false) := by
  refine ⟨fun h1 h2 => ?_, fun h1 h2 => ?_, fun h1 h2 => ?_, fun h1 h2 => ?_⟩ <;>
    subst h1 <;>
    simp [FsDatastore.openStore, FsDatastore.openTryBody, h2, JsError.codeOf]

/-- C6 witness: the four cases of the `open()` contract at concrete
configurations. -/
theorem claim6_witness :
    FsDatastore.openStore ⟨"/r".toList, ⟨true, true, ".data".toList⟩⟩ true =
      .error (.dbOpenFailed (.plain "Datastore directory already exists")) ∧
    FsDatastore.openStore ⟨"/r".toList, ⟨false, false, ".data".toList⟩⟩ false =
      .error (.notFound (.plain "Datastore directory does not exist")) ∧
    FsDatastore.openStore ⟨"/r".toList, ⟨true, false, ".data".toList⟩⟩ false =
      .ok true ∧
    FsDatastore.openStore ⟨"/r".toList, ⟨true, false, ".data".toList⟩⟩ true =
      .ok false :=
  ⟨(claim6_open_contract _ _).1 rfl rfl, (claim6_open_contract _ _).2.1 rfl rfl,
   (claim6_open_contract _ _).2.2.1 rfl rfl,
   (claim6_open_contract _ _).2.2.2 rfl rfl⟩

/-- C2: `_decode` is the exact inverse of `_encode` on the paths the
latter produces: for every valid key, decoding the encoded file path
yields the key back. -/
theorem claim2_codec_roundtrip (ds : Datastore) (segs : List JStr)
    (hr : validRoot ds.path) (he : validExt ds.opts.extension)
    (hk : validKey segs) :
    FsDatastore.decode ds (FsDatastore.encode ds (keyStr segs)).2 =
      .ok (keyStr segs) := by
  rw [FsDatastore.encode_file ds segs hr he hk]
  exact FsDatastore.decode_encoded ds segs hr he hk

/-- C2 witness: the codec round-trip evaluated on the key `/a/b` over
the root `/r` with the default `.data` extension. -/
theorem claim2_witness :
    validRoot ("/r".toList) ∧ validExt (".data".toList) ∧
    validKey ["a".toList, "b".toList] ∧
    FsDatastore.decode ⟨"/r".toList, defaultOpts⟩
      (FsDatastore.encode ⟨"/r".toList, defaultOpts⟩
        (keyStr ["a".toList, "b".toList])).2 =
      .ok (keyStr ["a".toList, "b".toList]) :=
  ⟨⟨["r".toList], by decide, by decide⟩,
   ⟨"data".toList, by decide, by decide, by decide, by decide, by decide⟩,
   by decide,
   claim2_codec_roundtrip ⟨"/r".toList, defaultOpts⟩ ["a".toList, "b".toList]
     ⟨["r".toList], by decide, by decide⟩
     ⟨"data".toList, by decide, by decide, by decide, by decide, by decide⟩
     (by decide)⟩

theorem writeFile_cases (w : Except IOErr Unit) (acc : Nat → Except IOErr Unit) :
    writeFile w acc = .ok () ∨ ∃ ioe, writeFile w acc = .error (.io ioe) := by
  cases w with
  | ok u => left; rfl
  | error err =>
    simp only [writeFile]
    by_cases h : err.code = "EPERM" ∧ err.syscall = "rename"
    · rw [if_pos h]
      cases hacc : acc (Nat.lor fsFOK fsWOK) with
      | ok u => left; rfl
      | error e => right; exact ⟨e, rfl⟩
    · rw [if_neg h]
      right; exact ⟨err, rfl⟩

/-- C4 (amended): every failure of `put()` surfaces as a `WriteFailed`
error wrapping the cause; `putRaw()` has no such wrapping — its failures
surface as the raw underlying fs error. -/
theorem claim4_put_error_mapping (m w : Except IOErr Unit)
    (acc : Nat → Except IOErr Unit) :
    (FsDatastore.put m w acc = .ok () ∨
      ∃ c, FsDatastore.put m w acc = .error (.writeFailed c)) ∧
    (FsDatastore.putRaw m w acc = .ok () ∨
      ∃ ioe, FsDatastore.putRaw m w acc = .error (.io ioe)) := by
  constructor
  · cases m with
    | error e => right; exact ⟨.io e, rfl⟩
    | ok u =>
      rcases writeFile_cases w acc with h | ⟨ioe, h⟩
      · left; simp [FsDatastore.put, h]
      · right; exact ⟨.io ioe, by simp [FsDatastore.put, h]⟩
  · cases m with
    | error e => right; exact ⟨e, rfl⟩
    | ok u =>
      rcases writeFile_cases w acc with h | ⟨ioe, h⟩
      · left; simpa [FsDatastore.putRaw] using h
      · right; exact ⟨ioe, by simpa [FsDatastore.putRaw] using h⟩

/-- C4 counterexample: a mkdir failure inside `putRaw` surfaces as the
raw `EACCES` fs error, not as a `WriteFailed` error, so the claim that
every `putRaw` I/O failure surfaces as `WriteFailed` is false. -/
theorem claim4_counterexample :
    FsDatastore.putRaw (.error ⟨"EACCES", "mkdir"⟩) (.ok ()) (fun _ => .ok ()) =
      .error (.io ⟨"EACCES", "mkdir"⟩) ∧
    (JsError.io ⟨"EACCES", "mkdir"⟩).isWriteFailedKind = false :=
  ⟨rfl, rfl⟩

/-- C5 (amended): on an `EPERM`/`rename` failure the writer verifies
the destination with `F_OK | W_OK` — existence and writability only,
not readability; success of that check yields success, its failure
propagates, and any error outside the `EPERM`/`rename` class propagates
directly. -/
theorem claim5_rename_race (w : IOErr) (acc : Nat → Except IOErr Unit) :
    (w.code = "EPERM" → w.syscall = "rename" →
      acc (Nat.lor fsFOK fsWOK) = .ok () → writeFile (.error w) acc = .ok ()) ∧
    (∀ e : IOErr, w.code = "EPERM" → w.syscall = "rename" →
      acc (Nat.lor fsFOK fsWOK) = .error e →
      writeFile (.error w) acc = .error (.io e)) ∧
    (¬(w.code = "EPERM" ∧ w.syscall = "rename") →
      writeFile (.error w) acc = .error (.io w)) ∧
    writeFile (.ok ()) acc = .ok () := by
  refine ⟨fun h1 h2 h3 => ?_, fun e h1 h2 h3 => ?_, fun h => ?_, rfl⟩
  · simp [writeFile, h1, h2, h3]
  · simp [writeFile, h1, h2, h3]
  · simp [writeFile, h]

/-- C5 witness: the three fallible branches of the rename-race handler
at concrete outcomes. -/
theorem claim5_witness :
    writeFile (.error ⟨"EPERM", "rename"⟩) (fun _ => .ok ()) = .ok () ∧
    writeFile (.error ⟨"EPERM", "rename"⟩) (fun _ => .error ⟨"EACCES", "access"⟩) =
      .error (.io ⟨"EACCES", "access"⟩) ∧
    writeFile (.error ⟨"ENOSPC", "write"⟩) (fun _ => .ok ()) =
      .error (.io ⟨"ENOSPC", "write"⟩) :=
  ⟨(claim5_rename_race _ _).1 rfl rfl rfl,
   (claim5_rename_race _ _).2.1 _ rfl rfl rfl,
   (claim5_rename_race _ _).2.2.1 (by decide)⟩

/-- The access outcome of a destination that exists and is writable but
not readable: any mode requesting `R_OK` (bit 4) is denied. -/
def denyRead : Nat → Except IOErr Unit := fun mode =>
  if 4 ≤ mode then .error ⟨"EACCES", "access"⟩ else .ok ()

/-- C5 counterexample: with the rename step failing `EPERM` and a
destination that exists and is writable but NOT readable, the code
returns success, although the verification the claim describes (exists
and readable and writable) fails and should propagate — as the
spec-modelled variant `writeFileSpecCheck` indeed does. -/
theorem claim5_counterexample :
    writeFile (.error ⟨"EPERM", "rename"⟩) denyRead = .ok () ∧
    denyRead (Nat.lor fsFOK (Nat.lor fsROK fsWOK)) =
      .error ⟨"EACCES", "access"⟩ ∧
    writeFileSpecCheck (.error ⟨"EPERM", "rename"⟩) denyRead =
      .error (.io ⟨"EACCES", "access"⟩) :=
  ⟨rfl, rfl, rfl⟩

theorem FsDatastore.rawFile_eq (ds : Datastore) (segs : List JStr)
    (hr : validRoot ds.path) (he : validExt ds.opts.extension)
    (hk : validKey segs) :
    FsDatastore.rawFile ds (keyStr segs) = ds.path ++ keyStr segs := by
  rw [FsDatastore.rawFile, FsDatastore.encode_file ds segs hr he hk]
  have hlen : (ds.path ++ keyStr segs ++ ds.opts.extension).length -
      ds.opts.extension.length = (ds.path ++ keyStr segs).length := by
    simp only [List.length_append]
    omega
  rw [hlen]
  exact List.take_left _ _

/-- C10: with a valid (nonempty) extension the raw and encoded file of a
key differ, so `putRaw` changes neither `get` nor `has`, and `put` does
not change `getRaw`. -/
theorem claim10_raw_disjoint (ds : Datastore) (st : FsState) (segs : List JStr)
    (v : List Nat) (hr : validRoot ds.path) (he : validExt ds.opts.extension)
    (hk : validKey segs) :
    FsDatastore.getSt ds (FsDatastore.putRawSt ds st (keyStr segs) v) (keyStr segs) =
      FsDatastore.getSt ds st (keyStr segs) ∧
    FsDatastore.hasSt ds (FsDatastore.putRawSt ds st (keyStr segs) v) (keyStr segs) =
      FsDatastore.hasSt ds st (keyStr segs) ∧
    FsDatastore.getRawSt ds (FsDatastore.putSt ds st (keyStr segs) v) (keyStr segs) =
      FsDatastore.getRawSt ds st (keyStr segs) := by
  have hne : (FsDatastore.encode ds (keyStr segs)).2 ≠
      FsDatastore.rawFile ds (keyStr segs) := by
    rw [FsDatastore.encode_file ds segs hr he hk, FsDatastore.rawFile_eq ds segs hr he hk]
    intro hc
    have := congrArg List.length hc
    simp only [List.length_append] at this
    have h2 := validExt_len he
    omega
  refine ⟨?_, ?_, ?_⟩
  · simp only [FsDatastore.getSt, FsDatastore.putRawSt, writeAtomicSt, readFileSt]
    rw [fsGet_set_ne _ _ hne]
  · simp only [FsDatastore.hasSt, FsDatastore.putRawSt, writeAtomicSt, accessSt]
    rw [fsGet_set_ne _ _ hne]
  · simp only [FsDatastore.getRawSt, FsDatastore.putSt, writeAtomicSt, readFileSt]
    rw [fsGet_set_ne _ _ (fun hc => hne hc.symm)]

/-- C10 witness: the raw/encoded disjointness evaluated for the key `/a`
over the root `/r` with the default extension, starting from the empty
store. -/
theorem claim10_witness :
    FsDatastore.getSt ⟨"/r".toList, defaultOpts⟩
      (FsDatastore.putRawSt ⟨"/r".toList, defaultOpts⟩ ⟨[]⟩
        (keyStr ["a".toList]) [1]) (keyStr ["a".toList]) =
      FsDatastore.getSt ⟨"/r".toList, defaultOpts⟩ ⟨[]⟩ (keyStr ["a".toList]) ∧
    FsDatastore.getRawSt ⟨"/r".toList, defaultOpts⟩
      (FsDatastore.putSt ⟨"/r".toList, defaultOpts⟩ ⟨[]⟩
        (keyStr ["a".toList]) [1]) (keyStr ["a".toList]) =
      FsDatastore.getRawSt ⟨"/r".toList, defaultOpts⟩ ⟨[]⟩ (keyStr ["a".toList]) :=
  ⟨(claim10_raw_disjoint ⟨"/r".toList, defaultOpts⟩ ⟨[]⟩ ["a".toList] [1]
      ⟨["r".toList], by decide, by decide⟩
      ⟨"data".toList, by decide, by decide, by decide, by decide, by decide⟩
      (by decide)).1,
   (claim10_raw_disjoint ⟨"/r".toList, defaultOpts⟩ ⟨[]⟩ ["a".toList] [1]
      ⟨["r".toList], by decide, by decide⟩
      ⟨"data".toList, by decide, by decide, by decide, by decide, by decide⟩
      (by decide)).2.2⟩

theorem jstrLe_total (a b : JStr) : jstrLe a b = true ∨ jstrLe b a = true := by
  induction a generalizing b with
  | nil => left; rfl
  | cons x xs ih =>
    cases b with
    | nil => right; rfl
    | cons y ys =>
      by_cases h1 : x.toNat < y.toNat
      · left; simp [jstrLe, h1]
      · by_cases h2 : y.toNat < x.toNat
        · right; simp [jstrLe, h2]
        · rcases ih ys with h | h
          · left; simp [jstrLe, h1, h2, h]
          · right; simp [jstrLe, h1, h2, h]

theorem char_eq_of_toNat_eq {a b : Char} (h : a.toNat = b.toNat) : a = b :=
  Char.eq_of_val_eq (UInt32.ext h)

theorem jstrLe_antisymm {a b : JStr} (h1 : jstrLe a b = true)
    (h2 : jstrLe b a = true) : a = b := by
  induction a generalizing b with
  | nil =>
    cases b with
    | nil => rfl
    | cons y ys => simp [jstrLe] at h2
  | cons x xs ih =>
    cases b with
    | nil => simp [jstrLe] at h1
    | cons y ys =>
      by_cases hxy : x.toNat < y.toNat
      · simp [jstrLe, Nat.lt_asymm hxy, hxy] at h2
      · by_cases hyx : y.toNat < x.toNat
        · simp [jstrLe, hxy, hyx] at h1
        · have hx : x = y := char_eq_of_toNat_eq (by omega)
          simp only [jstrLe, if_neg hxy, if_neg hyx] at h1
          simp only [jstrLe, if_neg hyx, if_neg hxy] at h2
          rw [hx, ih h1 h2]

theorem jstrLe_trans {a b c : JStr} (h1 : jstrLe a b = true)
    (h2 : jstrLe b c = true) : jstrLe a c = true := by
  induction a generalizing b c with
  | nil => rfl
  | cons x xs ih =>
    cases b with
    | nil => simp [jstrLe] at h1
    | cons y ys =>
      cases c with
      | nil => simp [jstrLe] at h2
      | cons z zs =>
        by_cases hxy : x.toNat < y.toNat
        · by_cases hyz : y.toNat < z.toNat
          · simp [jstrLe, Nat.lt_trans hxy hyz]
          · by_cases hzy : z.toNat < y.toNat
            · simp [jstrLe, hyz, hzy] at h2
            · have : y.toNat = z.toNat := by omega
              simp [jstrLe, this ▸ hxy]
        · by_cases hyx : y.toNat < x.toNat
          · simp [jstrLe, hxy, hyx] at h1
          · have hx : x.toNat = y.toNat := by omega
            by_cases hyz : y.toNat < z.toNat
            · simp [jstrLe, hx ▸ hyz]
            · by_cases hzy : z.toNat < y.toNat
              · simp [jstrLe, hyz, hzy] at h2
              · simp only [jstrLe, if_neg hxy, if_neg hyx] at h1
                simp only [jstrLe, if_neg hyz, if_neg hzy] at h2
                have hxz : ¬ x.toNat < z.toNat := by omega
                have hzx : ¬ z.toNat < x.toNat := by omega
                simp only [jstrLe, if_neg hxz, if_neg hzx]
                exact ih h1 h2

instance : IsTotal JStr jstrRel := ⟨fun a b => jstrLe_total a b⟩

instance : IsTrans JStr jstrRel := ⟨fun _ _ _ => jstrLe_trans⟩

instance : IsAntisymm JStr jstrRel := ⟨fun _ _ => jstrLe_antisymm⟩

theorem globSyncSt_perm_eq {st1 st2 : FsState} (pat : JStr)
    (h : List.Perm (st1.files.map Prod.fst) (st2.files.map Prod.fst)) :
    FsDatastore.globSyncSt st1 pat = FsDatastore.globSyncSt st2 pat := by
  unfold FsDatastore.globSyncSt
  refine List.eq_of_perm_of_sorted
    (((List.perm_insertionSort jstrRel _).trans (h.filter _)).trans
      (List.perm_insertionSort jstrRel _).symm)
    (List.sorted_insertionSort jstrRel _)
    (List.sorted_insertionSort jstrRel _)

/-- C9: a keys-only query yields entries with no value payload, and its
output is a function of the stored path set alone — two stores with the
same paths (in any order) and arbitrary values give identical keys-only
output, so no stored file content is consulted. -/
theorem claim9_keys_only (ds : Datastore) (q : Query) (st1 st2 : FsState)
    (hko : q.keysOnly = true) :
    (∀ x ∈ FsDatastore.allSt ds st1 q, ∀ ent : QEntry,
      x = .ok ent → ent.value = none) ∧
    (List.Perm (st1.files.map Prod.fst) (st2.files.map Prod.fst) →
      FsDatastore.allSt ds st1 q = FsDatastore.allSt ds st2 q) := by
  constructor
  · intro x hx ent hent
    simp only [FsDatastore.allSt, hko, Bool.not_true, Bool.false_eq_true, if_false,
      List.mem_map] at hx
    obtain ⟨f, hf, hfx⟩ := hx
    subst hent
    cases hdec : FsDatastore.decode ds f with
    | ok k =>
      rw [hdec] at hfx
      simp only [Except.map] at hfx
      have : ent = ⟨k, none⟩ := by
        cases hfx
        rfl
      rw [this]
    | error e =>
      rw [hdec] at hfx
      simp [Except.map] at hfx
  · intro hperm
    simp only [FsDatastore.allSt, hko, Bool.not_true, Bool.false_eq_true, if_false]
    rw [globSyncSt_perm_eq (FsDatastore.mkPattern ds q) hperm]

/-- C9 witness: two stores holding the paths `/r/a.data` and `/r/b.data`
in opposite orders with different values give the same keys-only output,
and a produced entry indeed has no value. -/
theorem claim9_witness :
    FsDatastore.allSt ⟨"/r".toList, defaultOpts⟩
        ⟨[("/r/a.data".toList, [1]), ("/r/b.data".toList, [2])]⟩ ⟨none, true⟩ =
      FsDatastore.allSt ⟨"/r".toList, defaultOpts⟩
        ⟨[("/r/b.data".toList, [9]), ("/r/a.data".toList, [])]⟩ ⟨none, true⟩ ∧
    (∀ ent : QEntry,
      Except.ok ent ∈ FsDatastore.allSt ⟨"/r".toList, defaultOpts⟩
        ⟨[("/r/a.data".toList, [1]), ("/r/b.data".toList, [2])]⟩ ⟨none, true⟩ →
      ent.value = none) :=
  ⟨(claim9_keys_only ⟨"/r".toList, defaultOpts⟩ ⟨none, true⟩
      ⟨[("/r/a.data".toList, [1]), ("/r/b.data".toList, [2])]⟩
      ⟨[("/r/b.data".toList, [9]), ("/r/a.data".toList, [])]⟩ rfl).2 (by decide),
   fun ent hmem =>
    (claim9_keys_only ⟨"/r".toList, defaultOpts⟩ ⟨none, true⟩
      ⟨[("/r/a.data".toList, [1]), ("/r/b.data".toList, [2])]⟩
      ⟨[("/r/b.data".toList, [9]), ("/r/a.data".toList, [])]⟩ rfl).1
      (Except.ok ent) hmem ent rfl⟩

theorem splitOn_file {root ext : JStr} {segs rsegs : List JStr} (hrk : validKey rsegs)
    (hroot : root = keyStr rsegs) (he : validExt ext) (hk : validKey segs)
    (hne : segs ≠ []) :
    splitOn '/' (root ++ keyStr segs ++ ext) =
      [] :: (rsegs ++ (segs.dropLast ++ [segs.getLast hne ++ ext])) := by
  have hlt : validSeg (segs.getLast hne) := hk.2 _ (List.getLast_mem hne)
  rw [file_pieces hrk hroot hk hne]
  refine splitOn_joinSep (by simp) ?_
  intro p hp
  rcases List.mem_cons.mp hp with hp | hp
  · subst hp; simp
  rcases List.mem_append.mp hp with hp | hp
  · exact validKey_free hrk p hp
  rcases List.mem_append.mp hp with hp | hp
  · exact validKey_free hk p (List.dropLast_subset _ hp)
  · have : p = segs.getLast hne ++ ext := by simpa using hp
    subst this
    intro hc
    rcases List.mem_append.mp hc with hc | hc
    · exact hlt.2.1 hc
    · exact validExt_free he hc

theorem pathJoinList_triple {a b c : JStr} (ha : a ≠ []) (hb : b ≠ []) (hc : c ≠ []) :
    pathJoinList [a, b, c] = pathNormalize (a ++ '/' :: (b ++ '/' :: c)) := by
  have hfa : (!a.isEmpty) = true := by
    cases a with
    | nil => exact absurd rfl ha
    | cons x xs => rfl
  have hfb : (!b.isEmpty) = true := by
    cases b with
    | nil => exact absurd rfl hb
    | cons x xs => rfl
  have hfc : (!c.isEmpty) = true := by
    cases c with
    | nil => exact absurd rfl hc
    | cons x xs => rfl
  simp only [pathJoinList, List.filter_cons, hfa, hfb, hfc, if_pos, List.filter_nil]
  simp only [if_neg (by simp : ([a, b, c] : List JStr) ≠ [])]
  rfl

theorem map_parseGSeg_lits {l : List JStr} (h : ∀ s ∈ l, validSeg s) :
    l.map parseGSeg = l.map GSeg.lit := by
  induction l with
  | nil => rfl
  | cons s rest ih =>
    have hs := h s (by simp)
    have h1 : s ≠ ['*', '*'] := by
      intro hc
      exact hs.2.2.2 (by rw [hc]; simp)
    have h2 : s.head? ≠ some '*' := by
      intro hc
      exact hs.2.2.2 (mem_of_head?_eq hc)
    simp only [List.map_cons, parseGSeg, if_neg h1, if_neg h2]
    rw [ih (fun q hq => h q (List.mem_cons_of_mem _ hq))]

theorem parseGSeg_star {ext : JStr} (he : validExt ext) :
    parseGSeg ('*' :: ext) = .starSuf ext := by
  obtain ⟨e, hene, hedot, heslash, hestar, hext⟩ := he
  have h1 : ('*' :: ext : JStr) ≠ ['*', '*'] := by
    rw [hext]
    intro hc
    injection hc with e1 e2
    injection e2 with e3 e4
    exact absurd e3 (by decide)
  have h2 : ('*' :: ext : JStr).head? = some '*' := rfl
  simp only [parseGSeg, if_neg h1, h2, if_pos rfl]
  rfl

theorem append_singleton_inj {α : Type} {A B : List α} {x y : α}
    (h : A ++ [x] = B ++ [y]) : A = B ∧ x = y := by
  have h2 := congrArg List.reverse h
  simp only [List.reverse_append, List.reverse_singleton, List.singleton_append] at h2
  injection h2 with e1 e2
  refine ⟨?_, e1⟩
  rw [← List.reverse_reverse A, e2, List.reverse_reverse]

theorem globMatch_lits_star (L : List JStr) (suf : JStr) (segs : List JStr) :
    globMatch (L.map GSeg.lit ++ [GSeg.starSuf suf]) segs = true ↔
      ∃ t, segs = L ++ [t] ∧ t.head? ≠ some '.' ∧ suf <:+ t := by
  induction L generalizing segs with
  | nil =>
    cases segs with
    | nil => simp [globMatch]
    | cons t rest =>
      cases rest with
      | nil => simp [globMatch]
      | cons u us => simp [globMatch]
  | cons l L ih =>
    cases segs with
    | nil => simp [globMatch]
    | cons t rest =>
      rw [List.map_cons, List.cons_append]
      have heq : globMatch (GSeg.lit l :: (L.map GSeg.lit ++ [GSeg.starSuf suf]))
          (t :: rest) =
          (decide (l = t) && globMatch (L.map GSeg.lit ++ [GSeg.starSuf suf]) rest) := by
        simp [globMatch, List.append_eq]
      rw [heq, Bool.and_eq_true, decide_eq_true_eq, ih]
      constructor
      · rintro ⟨h1, t', h2, h3, h4⟩
        exact ⟨t', by rw [h1, h2]; rfl, h3, h4⟩
      · rintro ⟨t', h2, h3, h4⟩
        injection h2 with e1 e2
        exact ⟨e1.symm, t', e2, h3, h4⟩

theorem head?_append_left {α : Type} {a : List α} (b : List α) (ha : a ≠ []) :
    (a ++ b).head? = a.head? := by
  cases a with
  | nil => exact absurd rfl ha
  | cons x xs => rfl

theorem globMatch_file_iff {rsegs psegs ksegs : List JStr} {ext : JStr}
    (hrk : validKey rsegs) (he : validExt ext) (hk : validKey ksegs)
    (hp : validKey psegs) :
    globMatch (([] :: (rsegs ++ psegs ++ ['*' :: ext])).map parseGSeg)
      (splitOn '/' (keyStr rsegs ++ keyStr ksegs ++ ext)) = true ↔
      ksegs.dropLast = psegs := by
  have hne : ksegs ≠ [] := hk.1
  have hlt : validSeg (ksegs.getLast hne) := hk.2 _ (List.getLast_mem hne)
  rw [splitOn_file hrk rfl he hk hne]
  have hmap : (([] :: (rsegs ++ psegs ++ ['*' :: ext])).map parseGSeg) =
      GSeg.lit [] :: ((rsegs ++ psegs).map GSeg.lit ++ [GSeg.starSuf ext]) := by
    rw [List.map_cons]
    have h0 : parseGSeg [] = GSeg.lit [] := rfl
    rw [h0, List.map_append,
      map_parseGSeg_lits (by
        intro q hq
        rcases List.mem_append.mp hq with hq | hq
        · exact hrk.2 q hq
        · exact hp.2 q hq)]
    simp [parseGSeg_star he]
  rw [hmap]
  have hpeel : globMatch
      (GSeg.lit [] :: ((rsegs ++ psegs).map GSeg.lit ++ [GSeg.starSuf ext]))
      ([] :: (rsegs ++ (ksegs.dropLast ++ [ksegs.getLast hne ++ ext]))) =
      globMatch ((rsegs ++ psegs).map GSeg.lit ++ [GSeg.starSuf ext])
        (rsegs ++ (ksegs.dropLast ++ [ksegs.getLast hne ++ ext])) := by
    simp [globMatch]
  rw [hpeel, globMatch_lits_star]
  constructor
  · rintro ⟨t, heq, hdot, hsuf⟩
    rw [List.append_assoc rsegs psegs [t]] at heq
    have heq2 : ksegs.dropLast ++ [ksegs.getLast hne ++ ext] = psegs ++ [t] :=
      List.append_cancel_left heq
    exact (append_singleton_inj heq2).1
  · intro hdl
    refine ⟨ksegs.getLast hne ++ ext, ?_, ?_, List.suffix_append _ _⟩
    · rw [List.append_assoc rsegs psegs _, hdl]
    · rw [head?_append_left ext hlt.1]
      exact hlt.2.2.1

theorem mkPattern_split {ds : Datastore} {rsegs psegs : List JStr} (ko : Bool)
    (hrk : validKey rsegs) (hroot : ds.path = keyStr rsegs)
    (he : validExt ds.opts.extension) (hp : validKey psegs) :
    splitOn '/' (FsDatastore.mkPattern ds ⟨some (keyStr psegs), ko⟩) =
      [] :: (rsegs ++ psegs ++ ['*' :: ds.opts.extension]) := by
  have hrootne : ds.path ≠ [] := by rw [hroot, keyStr]; simp
  have hkne : (keyStr psegs).isEmpty = false := rfl
  have hstar_ne : ('*' :: ds.opts.extension : JStr) ≠ [] := by simp
  have hstar_free : '/' ∉ ('*' :: ds.opts.extension : JStr) := by
    intro hc
    rcases List.mem_cons.mp hc with hc | hc
    · exact absurd hc (by decide)
    · exact validExt_free he hc
  have hstar_plain : plainPiece ('*' :: ds.opts.extension) := by
    refine Or.inr ⟨fun h => ?_, fun h => ?_⟩
    · injection h with e1 _
      exact absurd e1 (by decide)
    · injection h with e1 _
      exact absurd e1 (by decide)
  simp only [FsDatastore.mkPattern, hkne, Bool.false_eq_true, if_false]
  rw [joinSep_splitOn]
  rw [pathJoinList_triple hrootne (by rw [keyStr]; simp) hstar_ne]
  have hform : ds.path ++ '/' :: (keyStr psegs ++ '/' :: ('*' :: ds.opts.extension)) =
      joinSep '/' ([] :: (rsegs ++ ([] :: psegs) ++ ['*' :: ds.opts.extension])) := by
    have hsh : ([] :: (rsegs ++ ([] :: psegs) ++ ['*' :: ds.opts.extension]) :
        List JStr) = ([] :: rsegs) ++ (([] :: psegs) ++ ['*' :: ds.opts.extension]) := by
      simp
    rw [hsh, joinSep_append '/' (by simp) (by simp),
      joinSep_cons '/' [] rsegs hrk.1,
      joinSep_append '/' (by simp) (by simp),
      joinSep_cons '/' [] psegs hp.1, hroot, keyStr]
    rfl
  rw [hform]
  rw [pathNormalize_abs (by simp) (by
      intro p hp'
      rcases List.mem_append.mp hp' with hp' | hp'
      · rcases List.mem_append.mp hp' with hp' | hp'
        · exact validKey_free hrk p hp'
        · rcases List.mem_cons.mp hp' with hp' | hp'
          · subst hp'; simp
          · exact validKey_free hp p hp'
      · have : p = '*' :: ds.opts.extension := by simpa using hp'
        subst this
        exact hstar_free)
    (by
      intro p hp'
      rcases List.mem_append.mp hp' with hp' | hp'
      · rcases List.mem_append.mp hp' with hp' | hp'
        · exact validSeg_plain (hrk.2 p hp')
        · rcases List.mem_cons.mp hp' with hp' | hp'
          · subst hp'; exact Or.inl rfl
          · exact validSeg_plain (hp.2 p hp')
      · have : p = '*' :: ds.opts.extension := by simpa using hp'
        subst this
        exact hstar_plain)
    (by
      rw [List.filter_append, List.filter_append,
        filter_nonempty_id (validKey_elts_ne_nil hrk)]
      cases hc : (rsegs : List JStr) with
      | nil => exact absurd hc hrk.1
      | cons x xs => simp [hc])]
  have hfilter : ((rsegs ++ ([] :: psegs) ++ ['*' :: ds.opts.extension]) :
      List JStr).filter (fun s => !s.isEmpty) =
      rsegs ++ psegs ++ ['*' :: ds.opts.extension] := by
    rw [List.filter_append, List.filter_append,
      filter_nonempty_id (validKey_elts_ne_nil hrk), List.filter_cons]
    have h1 : (!([] : JStr).isEmpty) = false := rfl
    rw [h1]
    simp only [Bool.false_eq_true, if_false]
    rw [filter_nonempty_id (validKey_elts_ne_nil hp)]
    have h2 : (['*' :: ds.opts.extension] : List JStr).filter (fun s => !s.isEmpty) =
        ['*' :: ds.opts.extension] := by
      simp [List.filter_cons]
    rw [h2]
  rw [hfilter]
  have hlast : ((rsegs ++ ([] :: psegs) ++ ['*' :: ds.opts.extension]) :
      List JStr).getLast? ≠ some ([] : JStr) := by
    rw [List.getLast?_append_of_ne_nil _
      (by simp : (['*' :: ds.opts.extension] : List JStr) ≠ [])]
    intro hc
    simp at hc
  rw [if_neg hlast, List.append_nil]
  have hback : ('/' :: joinSep '/' (rsegs ++ psegs ++ ['*' :: ds.opts.extension]) :
      JStr) = joinSep '/' ([] :: (rsegs ++ psegs ++ ['*' :: ds.opts.extension])) := by
    rw [joinSep_cons '/' []
      (rsegs ++ psegs ++ ['*' :: ds.opts.extension]) (by simp)]
    rfl
  rw [hback]
  refine splitOn_joinSep (by simp) ?_
  intro p hp'
  rcases List.mem_cons.mp hp' with hp' | hp'
  · subst hp'; simp
  rcases List.mem_append.mp hp' with hp' | hp'
  · rcases List.mem_append.mp hp' with hp' | hp'
    · exact validKey_free hrk p hp'
    · exact validKey_free hp p hp'
  · have : p = '*' :: ds.opts.extension := by simpa using hp'
    subst this
    exact hstar_free

/-- C3 (amended): a query with prefix `p` builds the glob pattern
`<root>/<p>/*<extension>` — a single `*`, not a recursive `**` — so it
yields exactly the stored keys whose parent path is `p`, i.e. the keys
exactly one segment below `p`; deeper keys are not returned.  On the
spec's example (`/a/1`, `/a/2`, `/b/1` with prefix `/a`) the result is
still exactly `{/a/1, /a/2}`, since both are direct children of `/a`. -/
theorem claim3_prefix_query (ds : Datastore) (entries : List (List JStr × List Nat))
    (psegs : List JStr) (x : Except JsError QEntry)
    (hr : validRoot ds.path) (he : validExt ds.opts.extension)
    (hp : validKey psegs) (hent : ∀ e ∈ entries, validKey e.1) :
    x ∈ FsDatastore.allSt ds (mkState ds.path ds.opts.extension entries)
        ⟨some (keyStr psegs), true⟩ ↔
      ∃ ksegs v leaf, (ksegs, v) ∈ entries ∧ ksegs = psegs ++ [leaf] ∧
        x = .ok ⟨keyStr ksegs, none⟩ := by
  obtain ⟨rsegs, hrk, hroot⟩ := hr
  constructor
  · intro hx
    simp only [FsDatastore.allSt, Bool.not_true, Bool.false_eq_true, if_false,
      List.mem_map] at hx
    obtain ⟨f, hf, hfx⟩ := hx
    rw [FsDatastore.globSyncSt, (List.perm_insertionSort jstrRel _).mem_iff,
      List.mem_filter] at hf
    obtain ⟨hfp, hfm⟩ := hf
    simp only [mkState, List.map_map, List.mem_map, Function.comp] at hfp
    obtain ⟨⟨ksegs, v⟩, hkv, hfeq⟩ := hfp
    have hkvalid := hent _ hkv
    have hkne : ksegs ≠ [] := hkvalid.1
    rw [← hfeq] at hfm
    rw [mkPattern_split true hrk hroot he hp, hroot,
      globMatch_file_iff hrk he hkvalid hp] at hfm
    refine ⟨ksegs, v, ksegs.getLast hkne, hkv, ?_, ?_⟩
    · rw [← hfm, List.dropLast_append_getLast hkne]
    · rw [← hfx, ← hfeq,
        FsDatastore.decode_encoded ds ksegs ⟨rsegs, hrk, hroot⟩ he hkvalid]
      rfl
  · rintro ⟨ksegs, v, leaf, hkv, hkeq, hxeq⟩
    have hkvalid := hent _ hkv
    simp only [FsDatastore.allSt, Bool.not_true, Bool.false_eq_true, if_false,
      List.mem_map]
    refine ⟨ds.path ++ keyStr ksegs ++ ds.opts.extension, ?_, ?_⟩
    · rw [FsDatastore.globSyncSt, (List.perm_insertionSort jstrRel _).mem_iff,
        List.mem_filter]
      constructor
      · simp only [mkState, List.map_map, List.mem_map, Function.comp]
        exact ⟨(ksegs, v), hkv, rfl⟩
      · rw [mkPattern_split true hrk hroot he hp, hroot,
          globMatch_file_iff hrk he hkvalid hp, hkeq]
        simp
    · rw [FsDatastore.decode_encoded ds ksegs ⟨rsegs, hrk, hroot⟩ he hkvalid, hxeq]
      rfl

/-- C3 counterexample: with the key `/a/x/y` stored (which has `/a` as a
path-segment prefix, two levels deep), a query with prefix `/a` returns
nothing — the claimed "at any depth below p" behaviour does not hold —
even though the file is present and decodes to `/a/x/y`. -/
theorem claim3_counterexample :
    FsDatastore.allSt ⟨"/r".toList, defaultOpts⟩
        (mkState "/r".toList ".data".toList
          [(["a".toList, "x".toList, "y".toList], [1])])
        ⟨some (keyStr ["a".toList]), true⟩ = [] ∧
    fsGet (mkState "/r".toList ".data".toList
        [(["a".toList, "x".toList, "y".toList], [1])]).files
      "/r/a/x/y.data".toList = some [1] ∧
    FsDatastore.decode ⟨"/r".toList, defaultOpts⟩ "/r/a/x/y.data".toList =
      .ok "/a/x/y".toList := by
  refine ⟨by decide, by decide, by decide⟩

/-- The spec's prefix-filtering example store: keys `/a/1`, `/a/2`, `/b/1`. -/
def exampleEntries : List (List JStr × List Nat) :=
  [(["a".toList, "1".toList], [1]), (["a".toList, "2".toList], [2]),
   (["b".toList, "1".toList], [3])]

/-- C3 witness: on the spec's example store a query with prefix `/a`
yields exactly `{/a/1, /a/2}`, and the characterization theorem applied
at `/a/1` confirms its membership. -/
theorem claim3_witness :
    FsDatastore.allSt ⟨"/r".toList, defaultOpts⟩
        (mkState "/r".toList ".data".toList exampleEntries)
        ⟨some (keyStr ["a".toList]), true⟩ =
      [.ok ⟨keyStr ["a".toList, "1".toList], none⟩,
       .ok ⟨keyStr ["a".toList, "2".toList], none⟩] ∧
    (Except.ok (⟨keyStr ["a".toList, "1".toList], none⟩ : QEntry) ∈
      FsDatastore.allSt ⟨"/r".toList, defaultOpts⟩
        (mkState "/r".toList ".data".toList exampleEntries)
        ⟨some (keyStr ["a".toList]), true⟩) :=
  ⟨by decide,
   (claim3_prefix_query ⟨"/r".toList, defaultOpts⟩ exampleEntries ["a".toList]
      (.ok ⟨keyStr ["a".toList, "1".toList], none⟩)
      ⟨["r".toList], by decide, by decide⟩
      ⟨"data".toList, by decide, by decide, by decide, by decide, by decide⟩
      (by decide) (by decide)).mpr
    ⟨["a".toList, "1".toList], [1], "1".toList, by decide, by decide, rfl⟩⟩
